import Mathlib

/-!
# Shamir secret sharing with resharing (`src/main.cpp`)

A shallow embedding of the arithmetic of `main.cpp` and the properties proved about it.

* `mpz_class` values are `Int`; the operator `%` on them truncates towards zero (`Int.tmod`).
* `unsigned int` values are `Nat` below `2 ^ 32`, `size_t` and `unsigned long` values are `Nat`
  below `2 ^ 64`; the arithmetic that can wrap carries its modulus explicitly.
* The random generator is a stream of outcomes; drawing consumes the head of the stream.
* Reading or writing a vector outside its bounds has no defined behaviour in the source; the
  functions that can do so return `none` there.
-/

namespace Shamir

/-- The source's `share_t`: the pair (index, value). -/
abbrev share_t := Int × Int

/-- State of `gmp_randclass`: the outcomes of the draws still to come. -/
abbrev RandGen := Nat → Nat

/-- The call `randomGenerator.get_z_bits(bits)`: a value in `[0, 2 ^ bits)` and the advanced
generator. -/
def get_z_bits (g : RandGen) (bits : Nat) : Int × RandGen :=
  (((g 0 % 2 ^ bits : Nat) : Int), fun k => g (k + 1))

/-- Euclid's algorithm on `(r0, r1)`, carrying the cofactor of the first input; `fuel` bounds the
number of division steps. Returns the last nonzero remainder and its cofactor. -/
def gcdextLoop : Nat → Int → Int → Int → Int → Int × Int
  | 0, r0, s0, _, _ => (r0, s0)
  | fuel + 1, r0, s0, r1, s1 =>
    if r1 = 0 then (r0, s0)
    else gcdextLoop fuel r1 s1 (r0 % r1) (s0 - r0 / r1 * s1)

/-- The cofactor `s` that GMP's `mpz_gcdext (g, s, t, a, b)` stores, following the library's
documented contract: `a * s + b * t = g` with `g = gcd (a, b)`; `s = 0` when `|a| = |b|`;
`s = sgn a` when `b = 0` or `|b| = 2 g`; otherwise `s` is the one solution with
`|s| < |b| / (2 g)`. -/
def mpz_gcdext_s (a b : Int) : Int :=
  let gs := gcdextLoop (b.natAbs + 1) |a| 1 |b| 0
  if |a| = |b| then 0
  else if b = 0 ∨ |b| = 2 * gs.1 then Int.sign a
  else
    let m := |b| / gs.1
    let r := gs.2 % m
    Int.sign a * (if 2 * r < m then r else r - m)

/-- The source's `invertMultiplicative`. -/
def invertMultiplicative (x p : Int) : Int :=
  if x = p - 1 ∨ x = 1 then x
  else
    let inverse := mpz_gcdext_s x p
    if inverse < 0 then inverse + p else inverse

/-- The source's `invertAdditive`. -/
def invertAdditive (x p : Int) : Int :=
  (p - x.tmod p).tmod p

/-- Body of the loop of `getRandomPolynomial`: coefficient `i` becomes a fresh draw reduced
modulo `p`. -/
def randomCoefficientStep (p : Int) (security : Nat) (st : List Int × RandGen) (i : Nat) :
    List Int × RandGen :=
  (st.1.set i ((get_z_bits st.2 security).1.tmod p), (get_z_bits st.2 security).2)

/-- The source's `getRandomPolynomial`; `degree` is an `unsigned int`, so `degree + 1` wraps. -/
def getRandomPolynomial (degree : Nat) (p : Int) (g : RandGen) (security : Nat) :
    List Int × RandGen :=
  let coefficients := List.replicate ((degree + 1) % 2 ^ 32) (0 : Int)
  (List.range' 1 (coefficients.length - 1)).foldl (randomCoefficientStep p security)
    (coefficients, g)

/-- Body of the loop of `evaluatePolynomial` on the state `(result, expX)`. -/
def evaluateStep (x : Nat) (p : Int) (st : Int × Int) (c : Int) : Int × Int :=
  ((st.1 + (c * st.2).tmod p).tmod p, (st.2 * (x : Int)).tmod p)

/-- The source's `evaluatePolynomial`; `x` is an `unsigned int`. -/
def evaluatePolynomial (x : Nat) (coefficients : List Int) (p : Int) : Int :=
  (coefficients.foldl (evaluateStep x p) (0, 1)).1

/-- The coefficient list `share` evaluates: the random polynomial with the secret written to
position 0. -/
def shareCoefficients (secret : Int) (t : Nat) (p : Int) (g : RandGen) (security : Nat) :
    List Int :=
  (getRandomPolynomial ((2 ^ 32 - 1 + t) % 2 ^ 32) p g security).1.set 0 secret

/-- The loop of `share` over the positions `0 .. n - 1`: position `i` receives the index `i + 1`
and the value of the polynomial there (the argument of `evaluatePolynomial` is converted to
`unsigned int`). -/
def shareLoop (n : Nat) (coefficients : List Int) (p : Int) : List share_t :=
  (List.range n).map (fun i =>
    (((i + 1 : Nat) : Int), evaluatePolynomial ((i + 1) % 2 ^ 32) coefficients p))

/-- The source's `share`. The subtraction `t - 1` is `unsigned int` arithmetic; writing
coefficient 0 of an empty vector is out of range. -/
def share (secret : Int) (t n : Nat) (p : Int) (g : RandGen) (security : Nat) :
    Option (List share_t × RandGen) :=
  let cg := getRandomPolynomial ((2 ^ 32 - 1 + t) % 2 ^ 32) p g security
  if 0 < cg.1.length then some (shareLoop n (cg.1.set 0 secret) p, cg.2)
  else none

/-- Body of the loop of `evaluateLagrangePolynomial`. -/
def lagrangeStep (x x_j p : Int) (result x_m : Int) : Int :=
  if x_j = x_m then result
  else
    (result * (x + invertAdditive x_m p).tmod p
      * invertMultiplicative ((x_j + invertAdditive x_m p).tmod p) p).tmod p

/-- The source's `evaluateLagrangePolynomial`. -/
def evaluateLagrangePolynomial (x x_j : Int) (x_ms : List Int) (p : Int) : Int :=
  x_ms.foldl (lagrangeStep x x_j p) 1

/-- The source's `recover`. -/
def recover (shares : List share_t) (p : Int) : Int :=
  let indices := shares.map Prod.fst
  shares.foldl
    (fun secret sh => (secret + evaluateLagrangePolynomial 0 sh.1 indices p * sh.2).tmod p) 0

/-- The value `x.get_ui()`: the low 64 bits of `|x|`. -/
def get_ui (x : Int) : Nat :=
  x.natAbs % 2 ^ 64

/-- First loop of `reshare`: one mask share set per old share, each from a fresh random secret. -/
def randomSharesLoop (t_old n_new : Nat) (p : Int) (security : Nat) :
    Nat → RandGen → Option (List (List share_t) × RandGen)
  | 0, g => some ([], g)
  | m + 1, g =>
    match share ((get_z_bits g security).1.tmod p) t_old n_new p (get_z_bits g security).2
        security with
    | none => none
    | some (sh, g1) =>
      match randomSharesLoop t_old n_new p security m g1 with
      | none => none
      | some (rest, g2) => some (sh :: rest, g2)

/-- Inner loop of the masking step of `reshare` for one old share: adds the value stored at
position `index + 1` of every mask share set. -/
def maskShare (randomShares : List (List share_t)) (p : Int) (sh : share_t) : Option share_t :=
  (randomShares.foldlM (fun (y_j : Int) (rs : List share_t) =>
      (rs[(get_ui sh.1 + 1) % 2 ^ 64]?).map (fun r => (y_j + r.2).tmod p)) sh.2).map
    (fun y => (sh.1, y))

/-- Inner loop of the unmasking step of `reshare` for one new masked share: adds the additive
inverse of the value stored at position `index + 1` of every mask share set. -/
def unmaskShare (randomShares : List (List share_t)) (p : Int) (sh : share_t) : Option share_t :=
  (randomShares.foldlM (fun (y_j : Int) (rs : List share_t) =>
      (rs[(get_ui sh.1 + 1) % 2 ^ 64]?).map (fun r => (y_j + invertAdditive r.2 p).tmod p))
    sh.2).map (fun y => (sh.1, y))

/-- The source's `reshare`. -/
def reshare (shares : List share_t) (t_old t_new n_new : Nat) (p : Int) (g : RandGen)
    (security : Nat) : Option (List share_t × RandGen) :=
  match randomSharesLoop t_old n_new p security shares.length g with
  | none => none
  | some (randomShares, g1) =>
    match shares.mapM (maskShare randomShares p) with
    | none => none
    | some maskedShares =>
      match share (recover maskedShares p) t_new n_new p g1 security with
      | none => none
      | some (newMaskedShares, g2) =>
        match newMaskedShares.mapM (unmaskShare randomShares p) with
        | none => none
        | some newShares => some (newShares, g2)

/-! ### Truncated remainder -/

theorem tmod_range {a p : Int} (ha : 0 ≤ a) (hp : 0 < p) : 0 ≤ a.tmod p ∧ a.tmod p < p :=
  ⟨Int.tmod_nonneg p ha, Int.tmod_lt_of_pos a hp⟩

theorem cast_tmod (q : Nat) (a : Int) : ((a.tmod (q : Int) : Int) : ZMod q) = (a : ZMod q) := by
  rw [Int.tmod_def]
  push_cast
  simp

theorem invertAdditive_range (x : Int) {p : Int} (hp : 0 < p) :
    0 ≤ invertAdditive x p ∧ invertAdditive x p < p := by
  unfold invertAdditive
  have h1 : x.tmod p < p := Int.tmod_lt_of_pos x hp
  exact tmod_range (by omega) hp

theorem cast_invertAdditive (q : Nat) (x : Int) :
    ((invertAdditive x (q : Int) : Int) : ZMod q) = -(x : ZMod q) := by
  unfold invertAdditive
  rw [cast_tmod]
  push_cast
  rw [cast_tmod]
  simp

/-! ### Extended Euclid -/

theorem gcdextLoop_spec (a b : Int) : ∀ (fuel : Nat) (r0 s0 r1 s1 : Int),
    0 ≤ r0 → 0 ≤ r1 → r1 < fuel → b ∣ a * s0 - r0 → b ∣ a * s1 - r1 →
    (gcdextLoop fuel r0 s0 r1 s1).1 = (Int.gcd r0 r1 : Int) ∧
      b ∣ a * (gcdextLoop fuel r0 s0 r1 s1).2 - (gcdextLoop fuel r0 s0 r1 s1).1 := by
  intro fuel
  induction fuel with
  | zero => intro r0 s0 r1 s1 _ h1 h2; omega
  | succ k ih =>
    intro r0 s0 r1 s1 h0 h1 h2 d0 d1
    unfold gcdextLoop
    by_cases hz : r1 = 0
    · subst hz
      simp only [if_true]
      refine ⟨?_, d0⟩
      simp [Int.gcd, abs_of_nonneg h0]
    · simp only [hz, if_false]
      have hpos : 0 < r1 := lt_of_le_of_ne h1 (Ne.symm hz)
      have hm0 : 0 ≤ r0 % r1 := Int.emod_nonneg r0 hz
      have hm1 : r0 % r1 < r1 := Int.emod_lt_of_pos r0 hpos
      have hd : b ∣ a * (s0 - r0 / r1 * s1) - r0 % r1 := by
        have e : a * (s0 - r0 / r1 * s1) - r0 % r1
            = (a * s0 - r0) - (r0 / r1) * (a * s1 - r1) := by
          have := Int.emod_add_ediv r0 r1
          linear_combination (-1 : Int) * this
        rw [e]
        exact dvd_sub d0 (Dvd.dvd.mul_left d1 _)
      obtain ⟨e1, e2⟩ := ih r1 s1 (r0 % r1) (s0 - r0 / r1 * s1) h1 hm0 (by omega) d1 hd
      refine ⟨?_, e2⟩
      rw [e1]
      congr 1
      lift r0 to Nat using h0
      lift r1 to Nat using h1
      have e3 : ((r0 : Int) % (r1 : Int)) = ((r0 % r1 : Nat) : Int) := by norm_cast
      rw [e3]
      simp only [Int.gcd, Int.natAbs_ofNat]
      rw [Nat.gcd_comm r0 r1, Nat.gcd_comm r1 (r0 % r1)]
      exact (Nat.gcd_rec r1 r0).symm

theorem gcdextLoop_call (a b : Int) :
    (gcdextLoop (b.natAbs + 1) |a| 1 |b| 0).1 = (Int.gcd a b : Int) ∧
      |b| ∣ |a| * (gcdextLoop (b.natAbs + 1) |a| 1 |b| 0).2
        - (gcdextLoop (b.natAbs + 1) |a| 1 |b| 0).1 := by
  have h := gcdextLoop_spec |a| |b| (b.natAbs + 1) |a| 1 |b| 0 (abs_nonneg a) (abs_nonneg b)
    (by rw [Int.abs_eq_natAbs]; push_cast; omega) (by simp) (by simp)
  refine ⟨?_, h.2⟩
  rw [h.1]
  simp [Int.gcd, Int.natAbs_abs]

/-! ### Multiplicative inverse -/

theorem invertMultiplicative_spec {q : Nat} (hq : q.Prime) {x : Int} (h1 : 1 ≤ x)
    (h2 : x < q) :
    (0 ≤ invertMultiplicative x q ∧ invertMultiplicative x q < q) ∧
      (x * invertMultiplicative x q) % q = 1 := by
  have hq2 : (2 : Int) ≤ q := by exact_mod_cast hq.two_le
  unfold invertMultiplicative
  by_cases hf : x = (q : Int) - 1 ∨ x = 1
  · rw [if_pos hf]
    refine ⟨⟨by omega, by omega⟩, ?_⟩
    rcases hf with hf | hf
    · subst hf
      have e : ((q : Int) - 1) * ((q : Int) - 1) = 1 + (q : Int) * ((q : Int) - 2) := by ring
      rw [e, Int.add_mul_emod_self_left]
      exact Int.emod_eq_of_lt (by omega) (by omega)
    · subst hf
      exact Int.emod_eq_of_lt (by omega) (by omega)
  · rw [if_neg hf]
    push_neg at hf
    obtain ⟨g1, g2⟩ := gcdextLoop_call x q
    have hcop : Int.gcd x q = 1 := by
      have : Nat.Coprime q x.natAbs := by
        refine (Nat.Prime.coprime_iff_not_dvd hq).2 ?_
        intro hd
        have := Nat.le_of_dvd (by omega) hd
        omega
      rw [Int.gcd_comm]
      simpa [Int.gcd] using this
    have hax : |x| = x := abs_of_nonneg (by omega)
    have haq : |(q : Int)| = q := abs_of_nonneg (by omega)
    unfold mpz_gcdext_s
    simp only []
    rw [g1, hcop, hax, haq] at g2
    rw [g1, hcop, hax, haq]
    have hne : x ≠ (q : Int) := by omega
    rw [if_neg hne]
    have hne2 : ¬ ((q : Int) = 0 ∨ (q : Int) = 2 * ((1 : Nat) : Int)) := by
      push_cast
      omega
    rw [if_neg hne2]
    have hs : Int.sign x = 1 := Int.sign_eq_one_of_pos (by omega)
    rw [hs]
    push_cast
    simp only [Int.ediv_one, one_mul]
    set r := (gcdextLoop ((q : Int).natAbs + 1) x 1 q 0).2 % (q : Int) with hr
    have hr0 : 0 ≤ r := Int.emod_nonneg _ (by omega)
    have hr1 : r < q := Int.emod_lt_of_pos _ (by omega)
    have hres : (if (if 2 * r < (q : Int) then r else r - q) < 0
        then (if 2 * r < (q : Int) then r else r - q) + q
        else (if 2 * r < (q : Int) then r else r - q)) = r := by
      split_ifs <;> omega
    rw [hres]
    refine ⟨⟨hr0, hr1⟩, ?_⟩
    rw [hr, Int.mul_emod, Int.emod_emod, ← Int.mul_emod]
    push_cast at g2
    have h3 : (x * (gcdextLoop ((q : Int).natAbs + 1) x 1 q 0).2 - 1) % (q : Int) = 0 :=
      Int.emod_eq_zero_of_dvd g2
    have h4 := Int.emod_emod_of_dvd (x * (gcdextLoop ((q : Int).natAbs + 1) x 1 q 0).2)
      (dvd_refl (q : Int))
    have h5 : x * (gcdextLoop ((q : Int).natAbs + 1) x 1 q 0).2
        = (x * (gcdextLoop ((q : Int).natAbs + 1) x 1 q 0).2 - 1) + 1 := by ring
    rw [h5, Int.add_emod, h3]
    simp
    exact Int.emod_eq_of_lt (by omega) (by omega)

theorem invertMultiplicative_of_dvd {q : Nat} (hq : 2 ≤ q) {x : Int} (hx : (q : Int) ∣ x) :
    invertMultiplicative x q = 0 := by
  have hq2 : (2 : Int) ≤ q := by exact_mod_cast hq
  obtain ⟨k, rfl⟩ := hx
  unfold invertMultiplicative
  have hf : ¬ ((q : Int) * k = (q : Int) - 1 ∨ (q : Int) * k = 1) := by
    rintro (h | h)
    · have : (q : Int) ∣ 1 := ⟨1 - k, by linear_combination h⟩
      have := Int.le_of_dvd one_pos this
      omega
    · have : (q : Int) ∣ 1 := ⟨k, h.symm⟩
      have := Int.le_of_dvd one_pos this
      omega
  rw [if_neg hf]
  obtain ⟨g1, -⟩ := gcdextLoop_call ((q : Int) * k) q
  have hg : Int.gcd ((q : Int) * k) q = q := by
    rw [Int.gcd_eq_right (dvd_mul_right _ _)]
    simp
  have haq : |(q : Int)| = q := abs_of_nonneg (by omega)
  have hz : mpz_gcdext_s ((q : Int) * k) q = 0 := by
    unfold mpz_gcdext_s
    simp only []
    rw [g1, hg, haq]
    by_cases he : |(q : Int) * k| = q
    · rw [if_pos he]
    · rw [if_neg he]
      have hne2 : ¬ ((q : Int) = 0 ∨ (q : Int) = 2 * (q : Int)) := by omega
      rw [if_neg hne2]
      have : (q : Int) / q = 1 := Int.ediv_self (by omega)
      rw [this]
      simp
  rw [hz]
  simp

theorem cast_invertMultiplicative {q : Nat} (hq : q.Prime) {x : Int} (h1 : 1 ≤ x)
    (h2 : x < q) :
    ((invertMultiplicative x q : Int) : ZMod q) = ((x : Int) : ZMod q)⁻¹ := by
  haveI : Fact q.Prime := ⟨hq⟩
  have h := (invertMultiplicative_spec hq h1 h2).2
  have h3 : (((x * invertMultiplicative x q : Int)) : ZMod q) = ((1 : Int) : ZMod q) := by
    rw [ZMod.intCast_eq_intCast_iff]
    unfold Int.ModEq
    rw [h]
    exact (Int.emod_eq_of_lt (by omega) (by have := hq.two_le; omega)).symm
  push_cast at h3
  exact eq_inv_of_mul_eq_one_right h3

/-! ### Polynomial evaluation -/

theorem evaluate_foldl_cast (q x : Nat) (cs : List Int) :
    (((cs.foldl (evaluateStep x q) (0, 1)).1 : Int) : ZMod q)
        = ∑ i in Finset.range cs.length, ((cs.getD i 0 : Int) : ZMod q) * (x : ZMod q) ^ i ∧
      (((cs.foldl (evaluateStep x q) (0, 1)).2 : Int) : ZMod q) = (x : ZMod q) ^ cs.length := by
  induction cs using List.reverseRecOn with
  | nil => simp
  | append_singleton l a ih =>
    obtain ⟨ih1, ih2⟩ := ih
    rw [List.foldl_append]
    simp only [List.foldl_cons, List.foldl_nil, List.length_append, List.length_singleton]
    generalize List.foldl (evaluateStep x (q : Int)) (0, 1) l = st at ih1 ih2 ⊢
    unfold evaluateStep
    simp only []
    rw [cast_tmod, cast_tmod]
    push_cast
    rw [cast_tmod]
    push_cast
    rw [ih1, ih2, Finset.sum_range_succ]
    refine ⟨?_, by ring⟩
    congr 1
    · refine Finset.sum_congr rfl (fun i hi => ?_)
      rw [List.getD_append _ _ _ _ (Finset.mem_range.1 hi)]
    · rw [List.getD_append_right _ _ _ _ (le_refl _)]
      simp

theorem evaluate_foldl_range (x : Nat) {p : Int} (hp : 0 < p) (cs : List Int)
    (hcs : ∀ c ∈ cs, 0 ≤ c) : ∀ st : Int × Int, 0 ≤ st.1 → st.1 < p → 0 ≤ st.2 →
      0 ≤ (cs.foldl (evaluateStep x p) st).1 ∧ (cs.foldl (evaluateStep x p) st).1 < p := by
  induction cs with
  | nil => intro st h0 h1 _; exact ⟨h0, h1⟩
  | cons c cs ih =>
    intro st h0 h1 h2
    rw [List.foldl_cons]
    have hc : 0 ≤ c := hcs c (List.mem_cons_self _ _)
    have ht := tmod_range (mul_nonneg hc h2) hp
    have hr := tmod_range (a := st.1 + (c * st.2).tmod p) (by omega) hp
    have he := tmod_range (a := st.2 * (x : Int)) (mul_nonneg h2 (by positivity)) hp
    exact ih (fun c hc => hcs c (List.mem_cons_of_mem _ hc)) _ hr.1 hr.2 he.1

theorem evaluatePolynomial_range (x : Nat) {p : Int} (hp : 0 < p) (cs : List Int)
    (hcs : ∀ c ∈ cs, 0 ≤ c) :
    0 ≤ evaluatePolynomial x cs p ∧ evaluatePolynomial x cs p < p :=
  evaluate_foldl_range x hp cs hcs (0, 1) (le_refl _) hp (by decide)

theorem cast_evaluatePolynomial (q x : Nat) (cs : List Int) :
    ((evaluatePolynomial x cs q : Int) : ZMod q)
      = ∑ i in Finset.range cs.length, ((cs.getD i 0 : Int) : ZMod q) * (x : ZMod q) ^ i :=
  (evaluate_foldl_cast q x cs).1

theorem evaluatePolynomial_eq (x : Nat) {q : Nat} (hq : 1 ≤ q) (cs : List Int)
    (hcs : ∀ c ∈ cs, 0 ≤ c) :
    evaluatePolynomial x cs q
      = (∑ i in Finset.range cs.length, cs.getD i 0 * (x : Int) ^ i) % (q : Int) := by
  have hp : (0 : Int) < q := by exact_mod_cast hq
  have h := cast_evaluatePolynomial q x cs
  have h' : ((evaluatePolynomial x cs q : Int) : ZMod q)
      = ((∑ i in Finset.range cs.length, cs.getD i 0 * (x : Int) ^ i : Int) : ZMod q) := by
    rw [h]
    push_cast
    rfl
  rw [ZMod.intCast_eq_intCast_iff] at h'
  unfold Int.ModEq at h'
  rw [← h']
  have hr := evaluatePolynomial_range x hp cs hcs
  exact (Int.emod_eq_of_lt hr.1 hr.2).symm

/-! ### Lagrange basis values -/

theorem lagrangeStep_cast {q : Nat} (hq : q.Prime) (x x_j result x_m : Int) (hj : 0 ≤ x_j)
    (hne : x_j ≠ x_m → ((x_j : Int) : ZMod q) ≠ ((x_m : Int) : ZMod q)) :
    ((lagrangeStep x x_j q result x_m : Int) : ZMod q)
      = (result : ZMod q) * (if x_j = x_m then 1
          else ((x : ZMod q) - (x_m : ZMod q)) * ((x_j : ZMod q) - (x_m : ZMod q))⁻¹) := by
  haveI : Fact q.Prime := ⟨hq⟩
  have hp : (0 : Int) < q := by exact_mod_cast hq.pos
  unfold lagrangeStep
  by_cases h : x_j = x_m
  · simp [h]
  · rw [if_neg h, if_neg h, cast_tmod]
    have ha := invertAdditive_range x_m hp
    have hr := tmod_range (a := x_j + invertAdditive x_m q) (by omega) hp
    have hc : (((x_j + invertAdditive x_m q).tmod q : Int) : ZMod q)
        = (x_j : ZMod q) - (x_m : ZMod q) := by
      rw [cast_tmod]
      push_cast
      rw [cast_invertAdditive]
      ring
    have hnz : (x_j + invertAdditive x_m q).tmod q ≠ 0 := by
      intro h0
      rw [h0] at hc
      simp only [Int.cast_zero] at hc
      exact hne h (sub_eq_zero.1 hc.symm)
    have hinv := cast_invertMultiplicative hq (x := (x_j + invertAdditive x_m q).tmod q)
      (by omega) hr.2
    push_cast
    rw [hinv, hc, cast_tmod]
    push_cast
    rw [cast_invertAdditive]
    ring

theorem lagrange_foldl_cast {q : Nat} (hq : q.Prime) (x x_j : Int) (hj : 0 ≤ x_j)
    (x_ms : List Int)
    (hne : ∀ m ∈ x_ms, x_j ≠ m → ((x_j : Int) : ZMod q) ≠ ((m : Int) : ZMod q)) :
    ∀ init : Int, ((x_ms.foldl (lagrangeStep x x_j q) init : Int) : ZMod q)
      = (init : ZMod q) * ((x_ms.filter (fun m => decide (x_j ≠ m))).map
          (fun (m : Int) => ((x : ZMod q) - (m : ZMod q)) * ((x_j : ZMod q) - (m : ZMod q))⁻¹)).prod := by
  induction x_ms with
  | nil => intro init; simp
  | cons m ms ih =>
    intro init
    rw [List.foldl_cons, ih (fun m' hm' => hne m' (List.mem_cons_of_mem _ hm')),
      lagrangeStep_cast hq x x_j init m hj (hne m (List.mem_cons_self _ _))]
    by_cases h : x_j = m
    · simp [h]
    · rw [if_neg h, List.filter_cons_of_pos (by simpa using h), List.map_cons, List.prod_cons]
      ring

theorem cast_evaluateLagrangePolynomial {q : Nat} (hq : q.Prime) (x x_j : Int) (hj : 0 ≤ x_j)
    (x_ms : List Int)
    (hne : ∀ m ∈ x_ms, x_j ≠ m → ((x_j : Int) : ZMod q) ≠ ((m : Int) : ZMod q)) :
    ((evaluateLagrangePolynomial x x_j x_ms q : Int) : ZMod q)
      = ((x_ms.filter (fun m => decide (x_j ≠ m))).map
          (fun (m : Int) => ((x : ZMod q) - (m : ZMod q)) * ((x_j : ZMod q) - (m : ZMod q))⁻¹)).prod := by
  unfold evaluateLagrangePolynomial
  rw [lagrange_foldl_cast hq x x_j hj x_ms hne]
  simp

/-- Casting `recover`: the sum of the share values weighted by the basis values at 0. -/
theorem recover_foldl_cast {q : Nat} (hq : q.Prime) (idx : List Int) (l : List share_t)
    (hl : ∀ sh ∈ l, 0 ≤ sh.1 ∧
      ∀ m ∈ idx, sh.1 ≠ m → ((sh.1 : Int) : ZMod q) ≠ ((m : Int) : ZMod q)) :
    ∀ init : Int,
      ((l.foldl (fun secret sh =>
          (secret + evaluateLagrangePolynomial 0 sh.1 idx q * sh.2).tmod q) init : Int) : ZMod q)
        = (init : ZMod q) + (l.map (fun sh =>
            ((idx.filter (fun m => decide (sh.1 ≠ m))).map
              (fun (m : Int) => ((0 : ZMod q) - (m : ZMod q))
                * ((sh.1 : ZMod q) - (m : ZMod q))⁻¹)).prod * (sh.2 : ZMod q))).sum := by
  induction l with
  | nil => intro init; simp
  | cons sh l ih =>
    intro init
    rw [List.foldl_cons, ih (fun s hs => hl s (List.mem_cons_of_mem _ hs)), cast_tmod]
    have h := hl sh (List.mem_cons_self _ _)
    push_cast
    rw [cast_evaluateLagrangePolynomial hq 0 sh.1 h.1 idx h.2]
    simp only [List.map_cons, List.sum_cons, Int.cast_zero]
    ring

/-- Value at 0 of a polynomial of degree below the number of nodes, as a Lagrange sum. -/
theorem eval_zero_eq_lagrange_sum {F : Type} [Field F] [DecidableEq F] (s : Finset F)
    (f : Polynomial F) (hdeg : f.degree < s.card) :
    f.eval 0 = ∑ z in s, (∏ w in s.erase z, ((0 : F) - w) * (z - w)⁻¹) * f.eval z := by
  have h := Lagrange.eq_interpolate (s := s) (v := id) (f := f) (Set.injOn_id _) hdeg
  conv_lhs => rw [h]
  rw [Lagrange.interpolate_apply, Polynomial.eval_finset_sum]
  refine Finset.sum_congr rfl (fun z _ => ?_)
  rw [Polynomial.eval_mul, Polynomial.eval_C, Lagrange.basis, Polynomial.eval_prod, mul_comm]
  congr 1
  refine Finset.prod_congr rfl (fun w _ => ?_)
  simp [Lagrange.basisDivisor, mul_comm]

theorem filter_ne_map {α β : Type} [DecidableEq α] [DecidableEq β] (g : α → β) (a : α) :
    ∀ l : List α, (∀ m ∈ l, g a = g m → a = m) →
      (l.filter (fun m => decide (a ≠ m))).map g
        = (l.map g).filter (fun w => decide (g a ≠ w)) := by
  intro l
  induction l with
  | nil => intro _; rfl
  | cons b l ih =>
    intro h
    have ih' := ih (fun m hm => h m (List.mem_cons_of_mem _ hm))
    have hb := h b (List.mem_cons_self _ _)
    simp only [ne_eq, decide_not] at ih' ⊢
    by_cases hab : a = b
    · subst hab
      simp [ih']
    · have hg : g a ≠ g b := fun hc => hab (hb hc)
      simp [hab, hg, ih']

theorem cast_recover {q : Nat} (hq : q.Prime) (shares : List share_t)
    (h0 : ∀ sh ∈ shares, 0 ≤ sh.1)
    (hnd : (shares.map (fun sh => ((sh.1 : Int) : ZMod q))).Nodup)
    (f : Polynomial (ZMod q)) (hdeg : f.degree < shares.length)
    (hf : ∀ sh ∈ shares, ((sh.2 : Int) : ZMod q) = f.eval ((sh.1 : Int) : ZMod q)) :
    ((recover shares q : Int) : ZMod q) = f.eval 0 := by
  haveI : Fact q.Prime := ⟨hq⟩
  have hnd' : ((shares.map Prod.fst).map (fun (m : Int) => (m : ZMod q))).Nodup := by
    rw [List.map_map]
    exact hnd
  have hinj := List.inj_on_of_nodup_map hnd'
  unfold recover
  simp only []
  rw [recover_foldl_cast hq (shares.map Prod.fst) shares]
  swap
  · intro sh hsh
    refine ⟨h0 sh hsh, fun m hm hne hc => hne ?_⟩
    exact hinj (List.mem_map_of_mem _ hsh) hm hc
  set zs := (shares.map Prod.fst).map (fun (m : Int) => (m : ZMod q)) with hzs
  have hcard : zs.toFinset.card = shares.length := by
    rw [List.toFinset_card_of_nodup hnd']
    simp [hzs]
  rw [eval_zero_eq_lagrange_sum zs.toFinset f (by rw [hcard]; exact hdeg)]
  rw [List.sum_toFinset _ hnd', hzs, List.map_map, List.map_map]
  simp only [Int.cast_zero, zero_add]
  congr 1
  refine List.map_congr_left (fun sh hsh => ?_)
  simp only [Function.comp]
  rw [hf sh hsh]
  congr 1
  have hfilter : ((shares.map Prod.fst).filter (fun m => decide (sh.1 ≠ m))).map
        (fun (m : Int) => (m : ZMod q))
      = zs.filter (fun w => decide (((sh.1 : Int) : ZMod q) ≠ w)) :=
    filter_ne_map (fun (m : Int) => (m : ZMod q)) sh.1 (shares.map Prod.fst)
      (fun m hm hc => hinj (List.mem_map_of_mem _ hsh) hm hc)
  have hnd2 : (zs.filter (fun w => decide (((sh.1 : Int) : ZMod q) ≠ w))).Nodup :=
    List.Nodup.filter _ hnd'
  have e1 : ((shares.map Prod.fst).filter (fun m => decide (sh.1 ≠ m))).map
        (fun (m : Int) => ((0 : ZMod q) - (m : ZMod q)) * ((sh.1 : ZMod q) - (m : ZMod q))⁻¹)
      = (((shares.map Prod.fst).filter (fun m => decide (sh.1 ≠ m))).map
          (fun (m : Int) => (m : ZMod q))).map
        (fun w => ((0 : ZMod q) - w) * (((sh.1 : Int) : ZMod q) - w)⁻¹) := by
    rw [List.map_map]
    rfl
  rw [e1, hfilter, ← List.prod_toFinset _ hnd2]
  refine Finset.prod_congr ?_ (fun _ _ => rfl)
  ext w
  simp only [List.mem_toFinset, List.mem_filter, Finset.mem_erase, decide_eq_true_eq]
  constructor
  · rintro ⟨h1, h2⟩
    exact ⟨fun hc => h2 hc.symm, h1⟩
  · rintro ⟨h1, h2⟩
    exact ⟨h2, fun hc => h1 hc.symm⟩

/-! ### Ranges of the results -/

theorem invertMultiplicative_range {q : Nat} (hq : q.Prime) {x : Int} (h1 : 0 ≤ x)
    (h2 : x < q) : 0 ≤ invertMultiplicative x q ∧ invertMultiplicative x q < q := by
  by_cases h0 : x = 0
  · subst h0
    rw [invertMultiplicative_of_dvd hq.two_le (dvd_zero _)]
    exact ⟨le_refl _, by exact_mod_cast hq.pos⟩
  · exact (invertMultiplicative_spec hq (by omega) h2).1

theorem lagrange_foldl_nonneg {q : Nat} (hq : q.Prime) (x x_j : Int) (hx : 0 ≤ x)
    (hj : 0 ≤ x_j) (x_ms : List Int) :
    ∀ init : Int, 0 ≤ init → 0 ≤ x_ms.foldl (lagrangeStep x x_j q) init := by
  have hp : (0 : Int) < q := by exact_mod_cast hq.pos
  induction x_ms with
  | nil => intro init h; exact h
  | cons m ms ih =>
    intro init h
    rw [List.foldl_cons]
    apply ih
    unfold lagrangeStep
    split_ifs
    · exact h
    · have ha := invertAdditive_range m hp
      have h1 := tmod_range (a := x + invertAdditive m q) (by omega) hp
      have h2 := tmod_range (a := x_j + invertAdditive m q) (by omega) hp
      have h3 := invertMultiplicative_range hq h2.1 h2.2
      exact Int.tmod_nonneg _ (mul_nonneg (mul_nonneg h h1.1) h3.1)

theorem evaluateLagrangePolynomial_nonneg {q : Nat} (hq : q.Prime) (x x_j : Int) (hx : 0 ≤ x)
    (hj : 0 ≤ x_j) (x_ms : List Int) : 0 ≤ evaluateLagrangePolynomial x x_j x_ms q :=
  lagrange_foldl_nonneg hq x x_j hx hj x_ms 1 (by decide)

theorem recover_foldl_range {q : Nat} (hq : q.Prime) (idx : List Int) (l : List share_t)
    (hl : ∀ sh ∈ l, 0 ≤ sh.1 ∧ 0 ≤ sh.2) :
    ∀ init : Int, 0 ≤ init → init < q →
      0 ≤ l.foldl (fun secret sh =>
          (secret + evaluateLagrangePolynomial 0 sh.1 idx q * sh.2).tmod q) init ∧
        l.foldl (fun secret sh =>
          (secret + evaluateLagrangePolynomial 0 sh.1 idx q * sh.2).tmod q) init < q := by
  have hp : (0 : Int) < q := by exact_mod_cast hq.pos
  induction l with
  | nil => intro init h1 h2; exact ⟨h1, h2⟩
  | cons sh l ih =>
    intro init h1 h2
    rw [List.foldl_cons]
    have h := hl sh (List.mem_cons_self _ _)
    have hL := evaluateLagrangePolynomial_nonneg hq 0 sh.1 (le_refl _) h.1 idx
    have hr := tmod_range (a := init + evaluateLagrangePolynomial 0 sh.1 idx q * sh.2)
      (add_nonneg h1 (mul_nonneg hL h.2)) hp
    exact ih (fun s hs => hl s (List.mem_cons_of_mem _ hs)) _ hr.1 hr.2

theorem recover_range {q : Nat} (hq : q.Prime) (shares : List share_t)
    (hl : ∀ sh ∈ shares, 0 ≤ sh.1 ∧ 0 ≤ sh.2) :
    0 ≤ recover shares q ∧ recover shares q < q :=
  recover_foldl_range hq _ shares hl 0 (le_refl _) (by exact_mod_cast hq.pos)

/-- Two integers of `[0, q)` with the same residue are equal. -/
theorem eq_of_cast_eq {q : Nat} {a b : Int} (ha : 0 ≤ a ∧ a < q) (hb : 0 ≤ b ∧ b < q)
    (h : ((a : Int) : ZMod q) = ((b : Int) : ZMod q)) : a = b := by
  rw [ZMod.intCast_eq_intCast_iff] at h
  unfold Int.ModEq at h
  rw [Int.emod_eq_of_lt ha.1 ha.2, Int.emod_eq_of_lt hb.1 hb.2] at h
  exact h

/-- Two naturals below `q` with the same residue are equal. -/
theorem natCast_injOn {q : Nat} {a b : Nat} (ha : a < q) (hb : b < q)
    (h : ((a : Int) : ZMod q) = ((b : Int) : ZMod q)) : a = b := by
  have := eq_of_cast_eq (q := q) (a := a) (b := b) ⟨by positivity, by exact_mod_cast ha⟩
    ⟨by positivity, by exact_mod_cast hb⟩ h
  exact_mod_cast this

/-! ### The polynomial of a coefficient list -/

theorem exists_poly (q : Nat) (cs : List Int) :
    ∃ f : Polynomial (ZMod q), f.degree < cs.length ∧
      (∀ i, f.coeff i = ((cs.getD i 0 : Int) : ZMod q)) ∧
      ∀ z : ZMod q, f.eval z
        = ∑ i in Finset.range cs.length, ((cs.getD i 0 : Int) : ZMod q) * z ^ i := by
  refine ⟨∑ i : Fin cs.length,
      Polynomial.C ((cs.getD i 0 : Int) : ZMod q) * Polynomial.X ^ (i : Nat),
    Polynomial.degree_sum_fin_lt _, ?_, ?_⟩
  · intro i
    rw [Polynomial.finset_sum_coeff]
    simp only [Polynomial.coeff_C_mul_X_pow]
    by_cases hi : i < cs.length
    · rw [Finset.sum_eq_single (⟨i, hi⟩ : Fin cs.length)]
      · simp
      · intro b _ hb
        rw [if_neg]
        intro hc
        exact hb (Fin.ext hc.symm)
      · intro h
        exact absurd (Finset.mem_univ _) h
    · rw [List.getD_eq_default _ _ (by omega)]
      simp only [Int.cast_zero]
      refine Finset.sum_eq_zero (fun b _ => ?_)
      rw [if_neg]
      intro hc
      exact hi (hc ▸ b.2)
  · intro z
    rw [Polynomial.eval_finset_sum, Finset.sum_range]
    simp

theorem cast_evaluatePolynomial_poly {q : Nat} (cs : List Int) (f : Polynomial (ZMod q))
    (hf : ∀ z : ZMod q, f.eval z
        = ∑ i in Finset.range cs.length, ((cs.getD i 0 : Int) : ZMod q) * z ^ i) (x : Nat) :
    ((evaluatePolynomial x cs q : Int) : ZMod q) = f.eval (((x : Nat) : Int) : ZMod q) := by
  rw [cast_evaluatePolynomial, hf]
  simp

/-! ### Recovering the constant term -/

theorem recover_of_poly {q : Nat} (hq : q.Prime) (shares : List share_t)
    (hl : ∀ sh ∈ shares, 0 ≤ sh.1 ∧ 0 ≤ sh.2)
    (hnd : (shares.map (fun sh => ((sh.1 : Int) : ZMod q))).Nodup)
    (f : Polynomial (ZMod q)) (hdeg : f.degree < shares.length)
    (hf : ∀ sh ∈ shares, ((sh.2 : Int) : ZMod q) = f.eval ((sh.1 : Int) : ZMod q))
    (s : Int) (hs : 0 ≤ s ∧ s < q) (h0 : f.eval 0 = ((s : Int) : ZMod q)) :
    recover shares q = s := by
  apply eq_of_cast_eq (recover_range hq shares hl) hs
  rw [cast_recover hq shares (fun sh h => (hl sh h).1) hnd f hdeg hf, h0]

/-- Shares of one coefficient list at pairwise distinct points of `[0, q)`. -/
theorem recover_evaluatePolynomial {q : Nat} (hq : q.Prime) (cs : List Int)
    (hcs : ∀ c ∈ cs, 0 ≤ c ∧ c < q) (hlen : 1 ≤ cs.length)
    (shares : List share_t) (hk : cs.length ≤ shares.length)
    (hnd : (shares.map Prod.fst).Nodup)
    (hsh : ∀ sh ∈ shares, ∃ x : Nat, x < q ∧ sh = ((x : Int), evaluatePolynomial x cs q)) :
    recover shares q = cs.getD 0 0 := by
  have hp : (0 : Int) < q := by exact_mod_cast hq.pos
  obtain ⟨f, hdeg, -, hev⟩ := exists_poly q cs
  have hget : 0 ≤ cs.getD 0 0 ∧ cs.getD 0 0 < q := by
    rw [List.getD_eq_getElem _ _ (by omega : 0 < cs.length)]
    exact hcs _ (List.getElem_mem _)
  refine recover_of_poly hq shares ?_ ?_ f ?_ ?_ _ hget ?_
  · intro sh h
    obtain ⟨x, -, rfl⟩ := hsh sh h
    exact ⟨by positivity, (evaluatePolynomial_range x hp cs (fun c hc => (hcs c hc).1)).1⟩
  · have e : shares.map (fun sh => ((sh.1 : Int) : ZMod q))
        = (shares.map Prod.fst).map (fun (m : Int) => (m : ZMod q)) := by
      rw [List.map_map]
      rfl
    rw [e]
    refine List.Nodup.map_on ?_ hnd
    intro a ha b hb hab
    obtain ⟨sa, hsa, rfl⟩ := List.mem_map.1 ha
    obtain ⟨sb, hsb, rfl⟩ := List.mem_map.1 hb
    obtain ⟨x, hx, rfl⟩ := hsh sa hsa
    obtain ⟨y, hy, rfl⟩ := hsh sb hsb
    simp only at hab ⊢
    rw [natCast_injOn hx hy hab]
  · exact lt_of_lt_of_le hdeg (by exact_mod_cast hk)
  · intro sh h
    obtain ⟨x, -, rfl⟩ := hsh sh h
    exact cast_evaluatePolynomial_poly cs f hev x
  · rw [hev]
    rw [Finset.sum_eq_single 0]
    · simp
    · intro i _ hi
      simp [hi]
    · intro h
      exact absurd (Finset.mem_range.2 (by omega)) h

/-! ### Random polynomials and sharing -/

theorem randomCoefficient_foldl_length (p : Int) (security : Nat) (is : List Nat) :
    ∀ st : List Int × RandGen,
      (is.foldl (randomCoefficientStep p security) st).1.length = st.1.length := by
  induction is with
  | nil => intro st; rfl
  | cons i is ih =>
    intro st
    rw [List.foldl_cons, ih]
    simp [randomCoefficientStep]

theorem randomCoefficient_foldl_range {p : Int} (hp : 0 < p) (security : Nat) (is : List Nat) :
    ∀ st : List Int × RandGen, (∀ c ∈ st.1, 0 ≤ c ∧ c < p) →
      ∀ c ∈ (is.foldl (randomCoefficientStep p security) st).1, 0 ≤ c ∧ c < p := by
  induction is with
  | nil => intro st h; exact h
  | cons i is ih =>
    intro st h
    rw [List.foldl_cons]
    apply ih
    intro c hc
    rcases List.mem_or_eq_of_mem_set hc with h1 | h1
    · exact h c h1
    · rw [h1]
      exact tmod_range (by unfold get_z_bits; positivity) hp

theorem getRandomPolynomial_length (degree : Nat) (p : Int) (g : RandGen) (security : Nat) :
    (getRandomPolynomial degree p g security).1.length = (degree + 1) % 2 ^ 32 := by
  unfold getRandomPolynomial
  rw [randomCoefficient_foldl_length]
  simp

theorem getRandomPolynomial_range (degree : Nat) {p : Int} (hp : 0 < p) (g : RandGen)
    (security : Nat) : ∀ c ∈ (getRandomPolynomial degree p g security).1, 0 ≤ c ∧ c < p := by
  unfold getRandomPolynomial
  apply randomCoefficient_foldl_range hp
  intro c hc
  rw [List.eq_of_mem_replicate hc]
  exact ⟨le_refl _, hp⟩

theorem shareCoefficients_length (secret : Int) {t : Nat} (h1 : 1 ≤ t) (h2 : t < 2 ^ 32)
    (p : Int) (g : RandGen) (security : Nat) :
    (shareCoefficients secret t p g security).length = t := by
  unfold shareCoefficients
  rw [List.length_set, getRandomPolynomial_length]
  omega

theorem shareCoefficients_zero (secret : Int) {t : Nat} (h1 : 1 ≤ t) (h2 : t < 2 ^ 32)
    (p : Int) (g : RandGen) (security : Nat) :
    (shareCoefficients secret t p g security).getD 0 0 = secret := by
  have hlen := shareCoefficients_length secret h1 h2 p g security
  rw [List.getD_eq_getElem _ _ (by omega)]
  unfold shareCoefficients
  simp

theorem shareCoefficients_range {secret : Int} (t : Nat) {p : Int} (hp : 0 < p)
    (hs : 0 ≤ secret ∧ secret < p) (g : RandGen) (security : Nat) :
    ∀ c ∈ shareCoefficients secret t p g security, 0 ≤ c ∧ c < p := by
  intro c hc
  unfold shareCoefficients at hc
  rcases List.mem_or_eq_of_mem_set hc with h | h
  · exact getRandomPolynomial_range _ hp g security c h
  · rw [h]; exact hs

theorem shareLoop_length (n : Nat) (cs : List Int) (p : Int) :
    (shareLoop n cs p).length = n := by
  simp [shareLoop]

theorem share_eq (secret : Int) {t : Nat} (h1 : 1 ≤ t) (h2 : t < 2 ^ 32) (n : Nat) (p : Int)
    (g : RandGen) (security : Nat) :
    share secret t n p g security
      = some (shareLoop n (shareCoefficients secret t p g security) p,
          (getRandomPolynomial ((2 ^ 32 - 1 + t) % 2 ^ 32) p g security).2) := by
  unfold share
  simp only []
  rw [if_pos]
  · rfl
  · rw [getRandomPolynomial_length]
    omega

theorem mem_share_list {n : Nat} (hn : n < 2 ^ 32) (cs : List Int) (p : Int) {sh : share_t}
    (h : sh ∈ shareLoop n cs p) :
    ∃ x : Nat, (1 ≤ x ∧ x ≤ n) ∧ sh = ((x : Int), evaluatePolynomial x cs p) := by
  obtain ⟨i, hi, rfl⟩ := List.mem_map.1 h
  have hi' := List.mem_range.1 hi
  refine ⟨i + 1, ⟨by omega, by omega⟩, ?_⟩
  rw [Nat.mod_eq_of_lt (by omega)]

/-- C1 (amended): for every prime `p`, secret `s` of `[0, p)`, thresholds `1 ≤ t ≤ n` with
`n < p` and every outcome of the draws, `share (s, t, n, p)` returns a share set, and `recover`
applied to any `t` distinct shares of it returns `s`. -/
theorem share_recover_roundtrip (p : Nat) (hp : p.Prime) (s : Int) (hs : 0 ≤ s ∧ s < p)
    (t n : Nat) (ht : 1 ≤ t) (htn : t ≤ n) (hn : n < 2 ^ 32) (hnp : n < p) (g : RandGen)
    (security : Nat) :
    ∃ shares g', share s t n p g security = some (shares, g') ∧
      ∀ sub : List share_t, sub.Nodup → (∀ sh ∈ sub, sh ∈ shares) → sub.length = t →
        recover sub p = s := by
  have hpos : (0 : Int) < p := by exact_mod_cast hp.pos
  refine ⟨_, _, share_eq s ht (by omega) n p g security, ?_⟩
  intro sub hnd hsub hlen
  have hcl := shareCoefficients_length s ht (by omega : t < 2 ^ 32) p g security
  rw [← shareCoefficients_zero s ht (by omega : t < 2 ^ 32) p g security]
  refine recover_evaluatePolynomial hp _ (shareCoefficients_range t hpos hs g security)
    (by omega) sub (by omega) ?_ ?_
  · refine List.Nodup.map_on ?_ hnd
    intro a ha b hb hab
    obtain ⟨x, -, rfl⟩ := mem_share_list hn _ _ (hsub a ha)
    obtain ⟨y, -, rfl⟩ := mem_share_list hn _ _ (hsub b hb)
    simp only [Nat.cast_inj] at hab
    rw [hab]
  · intro sh h
    obtain ⟨x, hx, rfl⟩ := mem_share_list hn _ _ (hsub sh h)
    exact ⟨x, by omega, rfl⟩

theorem share_recover_roundtrip_witness :
    ∃ shares g', share 7 3 5 ((23 : Nat) : Int) (fun k => 5 * k + 3) 48 = some (shares, g') ∧
      ∀ sub : List share_t, sub.Nodup → (∀ sh ∈ sub, sh ∈ shares) → sub.length = 3 →
        recover sub ((23 : Nat) : Int) = 7 :=
  share_recover_roundtrip 23 (by norm_num) 7 (by decide) 3 5 (by decide) (by decide)
    (by decide) (by decide) (fun k => 5 * k + 3) 48

/-- C1 (as stated, without `n < p`): for `p = 2`, `s = 1`, `t = 2`, `n = 3` and all draws 0 the
shares are `(1,1), (2,1), (3,1)`, and the two shares with indices 1 and 3 recover 0. -/
theorem share_recover_roundtrip_counterexample :
    Nat.Prime 2 ∧
      (share 1 2 3 2 (fun _ => 0) 48).map Prod.fst = some [(1, 1), (2, 1), (3, 1)] ∧
      recover [(1, 1), (3, 1)] 2 = 0 ∧ recover [(1, 1), (3, 1)] 2 ≠ 1 :=
  ⟨Nat.prime_two, by decide, by decide, by decide⟩

/-- C2: `recover` is Lagrange interpolation at 0: for a prime `p`, a polynomial with `t ≥ 1`
coefficients of `[0, p)` and `k ≥ t` shares `(x_j, evaluatePolynomial (x_j, coefficients, p))` at
pairwise distinct indices of `[1, p)`, it returns coefficient 0; so every choice of at least `t`
shares of one share set recovers the same value. -/
theorem recover_lagrange_at_zero (p : Nat) (hp : p.Prime) (coefficients : List Int)
    (ht : 1 ≤ coefficients.length) (hc : ∀ c ∈ coefficients, 0 ≤ c ∧ c < p)
    (xs : List Nat) (hk : coefficients.length ≤ xs.length) (hnd : xs.Nodup)
    (hx : ∀ x ∈ xs, 1 ≤ x ∧ x < p) :
    recover (xs.map (fun (x : Nat) => ((x : Int), evaluatePolynomial x coefficients p))) p
      = coefficients.getD 0 0 := by
  refine recover_evaluatePolynomial hp coefficients hc ht _ (by simpa using hk) ?_ ?_
  · rw [List.map_map]
    exact List.Nodup.map (fun a b h => by simpa using h) hnd
  · intro sh h
    obtain ⟨x, hx', rfl⟩ := List.mem_map.1 h
    exact ⟨x, (hx x hx').2, rfl⟩

theorem recover_lagrange_at_zero_witness :
    recover ([2, 5, 3, 9].map (fun (x : Nat) => ((x : Int),
        evaluatePolynomial x [7, 11, 4] ((23 : Nat) : Int)))) ((23 : Nat) : Int)
      = ([7, 11, 4] : List Int).getD 0 0 :=
  recover_lagrange_at_zero 23 (by norm_num) [7, 11, 4] (by decide) (by decide) [2, 5, 3, 9]
    (by decide) (by decide) (by decide)

/-- C4: for a prime `p` and `1 ≤ x < p`, `invertMultiplicative (x, p)` lies in `[0, p)` and is an
inverse of `x` modulo `p`. -/
theorem invertMultiplicative_correct (p : Nat) (hp : p.Prime) (x : Int) (h1 : 1 ≤ x)
    (h2 : x < p) :
    (0 ≤ invertMultiplicative x p ∧ invertMultiplicative x p < p) ∧
      (x * invertMultiplicative x p) % p = 1 :=
  invertMultiplicative_spec hp h1 h2

theorem invertMultiplicative_correct_witness :
    (0 ≤ invertMultiplicative 5 ((23 : Nat) : Int) ∧
        invertMultiplicative 5 ((23 : Nat) : Int) < ((23 : Nat) : Int)) ∧
      (5 * invertMultiplicative 5 ((23 : Nat) : Int)) % ((23 : Nat) : Int) = 1 :=
  invertMultiplicative_correct 23 (by norm_num) 5 (by decide) (by decide)

theorem lagrange_foldl_filter (x x_j p : Int) (x_ms : List Int) :
    ∀ init : Int, x_ms.foldl (lagrangeStep x x_j p) init
      = (x_ms.filter (fun m => decide (x_j ≠ m))).foldl (lagrangeStep x x_j p) init := by
  induction x_ms with
  | nil => intro init; rfl
  | cons m ms ih =>
    intro init
    by_cases h : x_j = m
    · rw [List.foldl_cons, List.filter_cons_of_neg (by simpa using h), ih]
      simp [lagrangeStep, h]
    · rw [List.foldl_cons, List.filter_cons_of_pos (by simpa using h), List.foldl_cons, ih]

/-- C7 (amended): a repeated index is not rejected; on every list of shares, with or without
repeated indices, `recover` returns a value of `[0, p)`, and every basis product skips all
entries whose index equals its own. -/
theorem recover_repeated_index_returns (p : Nat) (hp : p.Prime) (shares : List share_t)
    (hl : ∀ sh ∈ shares, 0 ≤ sh.1 ∧ 0 ≤ sh.2) :
    (0 ≤ recover shares p ∧ recover shares p < p) ∧
      ∀ sh ∈ shares, evaluateLagrangePolynomial 0 sh.1 (shares.map Prod.fst) p
        = evaluateLagrangePolynomial 0 sh.1
            ((shares.map Prod.fst).filter (fun m => decide (sh.1 ≠ m))) p :=
  ⟨recover_range hp shares hl, fun sh _ => lagrange_foldl_filter 0 sh.1 p _ 1⟩

theorem recover_repeated_index_returns_witness :
    (0 ≤ recover [(1, 5), (1, 6)] ((23 : Nat) : Int) ∧
        recover [(1, 5), (1, 6)] ((23 : Nat) : Int) < ((23 : Nat) : Int)) ∧
      ∀ sh ∈ ([(1, 5), (1, 6)] : List share_t),
        evaluateLagrangePolynomial 0 sh.1 (([(1, 5), (1, 6)] : List share_t).map Prod.fst)
            ((23 : Nat) : Int)
          = evaluateLagrangePolynomial 0 sh.1
              ((([(1, 5), (1, 6)] : List share_t).map Prod.fst).filter
                (fun m => decide (sh.1 ≠ m))) ((23 : Nat) : Int) :=
  recover_repeated_index_returns 23 (by norm_num) [(1, 5), (1, 6)] (by decide)

/-- C7 (as stated): two shares with index 1 are not rejected; `recover` returns 11. -/
theorem recover_duplicate_index_counterexample :
    ¬ (([(1, 5), (1, 6)] : List share_t).map Prod.fst).Nodup ∧
      recover [(1, 5), (1, 6)] 23 = 11 :=
  ⟨by decide, by decide⟩

/-- C8 (amended): for every prime `p` and every `x ≡ 0 (mod p)`, in particular `x = 0`, the call
`invertMultiplicative (x, p)` returns 0 and no error. -/
theorem invertMultiplicative_zero_class (p : Nat) (hp : p.Prime) (x : Int)
    (hx : (p : Int) ∣ x) : invertMultiplicative x p = 0 :=
  invertMultiplicative_of_dvd hp.two_le hx

theorem invertMultiplicative_zero_class_witness :
    invertMultiplicative 46 ((23 : Nat) : Int) = 0 :=
  invertMultiplicative_zero_class 23 (by norm_num) 46 (by decide)

/-- C8 (as stated): `invertMultiplicative (0, 23)` returns 0 instead of failing. -/
theorem invertMultiplicative_zero_counterexample :
    Nat.Prime 23 ∧ invertMultiplicative 0 23 = 0 :=
  ⟨by norm_num, by decide⟩

/-- C10: `evaluatePolynomial (x, coefficients, p)` is `(Σ c_i x^i) mod p`; at `x = 0` it is
`c_0 mod p`, and on the empty coefficient list it is 0. -/
theorem evaluatePolynomial_reference (p : Nat) (hp : 1 ≤ p) (x : Nat) (coefficients : List Int)
    (hc : ∀ c ∈ coefficients, 0 ≤ c) :
    evaluatePolynomial x coefficients p
        = (∑ i in Finset.range coefficients.length,
            coefficients.getD i 0 * (x : Int) ^ i) % (p : Int) ∧
      evaluatePolynomial 0 coefficients p = coefficients.getD 0 0 % (p : Int) ∧
      evaluatePolynomial x [] p = 0 := by
  refine ⟨evaluatePolynomial_eq x hp coefficients hc, ?_, rfl⟩
  rw [evaluatePolynomial_eq 0 hp coefficients hc]
  congr 1
  cases coefficients with
  | nil => simp
  | cons c cs =>
    rw [Finset.sum_eq_single 0]
    · simp
    · intro i _ hi
      simp [hi]
    · intro h
      simp at h

theorem evaluatePolynomial_reference_witness :
    evaluatePolynomial 3 [7, 11, 4] ((23 : Nat) : Int)
        = (∑ i in Finset.range ([7, 11, 4] : List Int).length,
            ([7, 11, 4] : List Int).getD i 0 * ((3 : Nat) : Int) ^ i) % ((23 : Nat) : Int) ∧
      evaluatePolynomial 0 [7, 11, 4] ((23 : Nat) : Int)
        = ([7, 11, 4] : List Int).getD 0 0 % ((23 : Nat) : Int) ∧
      evaluatePolynomial 3 [] ((23 : Nat) : Int) = 0 :=
  evaluatePolynomial_reference 23 (by decide) 3 [7, 11, 4] (by decide)

/-! ### Secrecy below the threshold -/

/-- Casting the evaluation of `s :: cs` when a polynomial carries the same coefficients. -/
theorem cast_evaluatePolynomial_of_coeff {q : Nat} (cs : List Int) (f : Polynomial (ZMod q))
    (hdeg : f.degree < cs.length)
    (hco : ∀ i, i < cs.length → f.coeff i = ((cs.getD i 0 : Int) : ZMod q)) (x : Nat) :
    ((evaluatePolynomial x cs q : Int) : ZMod q) = f.eval ((x : Nat) : ZMod q) := by
  rw [cast_evaluatePolynomial]
  by_cases hf : f = 0
  · subst hf
    simp only [Polynomial.eval_zero]
    refine Finset.sum_eq_zero (fun i hi => ?_)
    rw [← hco i (Finset.mem_range.1 hi)]
    simp
  · have hnat : f.natDegree < cs.length := (Polynomial.natDegree_lt_iff_degree_lt hf).2 hdeg
    rw [Polynomial.eval_eq_sum_range' hnat]
    refine Finset.sum_congr rfl (fun i hi => ?_)
    rw [hco i (Finset.mem_range.1 hi)]

theorem secrecy_exists {q : Nat} (hq : q.Prime) (xs : List Nat) (hnd : xs.Nodup)
    (hx : ∀ x ∈ xs, 1 ≤ x ∧ x < q) (s : Int) (hs : 0 ≤ s ∧ s < q) (ys : List Int)
    (hyl : ys.length = xs.length) (hy : ∀ y ∈ ys, 0 ≤ y ∧ y < q) :
    ∃ cs : List Int, cs.length = xs.length ∧ (∀ c ∈ cs, 0 ≤ c ∧ c < q) ∧
      xs.map (fun (x : Nat) => evaluatePolynomial x (s :: cs) q) = ys := by
  haveI : Fact q.Prime := ⟨hq⟩
  haveI : NeZero q := ⟨hq.ne_zero⟩
  have hp : (0 : Int) < q := by exact_mod_cast hq.pos
  set k := xs.length with hk
  -- nodes and values, indexed by `Fin (k + 1)`
  let v : Fin (k + 1) → ZMod q := fun i => (((0 :: xs).getD i 0 : Nat) : ZMod q)
  let r : Fin (k + 1) → ZMod q := fun i => (((s :: ys).getD i 0 : Int) : ZMod q)
  have hnd0 : (0 :: xs).Nodup := by
    refine List.nodup_cons.2 ⟨fun h0 => ?_, hnd⟩
    have := (hx 0 h0).1
    omega
  have hlt0 : ∀ i : Fin (k + 1), (0 :: xs).getD i 0 < q := by
    intro i
    have hall : ∀ c ∈ (0 :: xs), c < q := by
      intro c hc
      rcases List.mem_cons.1 hc with h | h
      · rw [h]; exact hq.pos
      · exact (hx _ h).2
    rw [List.getD_eq_getElem _ _ (by simp [hk])]
    exact hall _ (List.getElem_mem _)
  have hv : Function.Injective v := by
    intro i j hij
    have h1 : (0 :: xs).getD i 0 = (0 :: xs).getD j 0 := by
      have h2 : ((((0 :: xs).getD i 0 : Nat) : Int) : ZMod q)
          = ((((0 :: xs).getD j 0 : Nat) : Int) : ZMod q) := by
        simpa [v] using hij
      exact natCast_injOn (hlt0 i) (hlt0 j) h2
    rw [List.getD_eq_getElem _ _ (by simp [hk]), List.getD_eq_getElem _ _ (by simp [hk])] at h1
    exact Fin.ext ((List.Nodup.getElem_inj_iff hnd0).1 h1)
  set f := Lagrange.interpolate Finset.univ v r with hf
  have hdeg : f.degree < ((k + 1 : Nat) : WithBot Nat) := by
    have := Lagrange.degree_interpolate_lt (s := Finset.univ) (v := v) r (hv.injOn)
    simpa using this
  have hev : ∀ i : Fin (k + 1), f.eval (v i) = r i := fun i =>
    Lagrange.eval_interpolate_at_node r (hv.injOn) (Finset.mem_univ i)
  -- the coefficient vector
  let cs : List Int := (List.range k).map (fun i => (((f.coeff (i + 1)).val : Nat) : Int))
  have hcl : cs.length = k := by simp [cs]
  have hcr : ∀ c ∈ cs, 0 ≤ c ∧ c < q := by
    intro c hc
    obtain ⟨i, -, rfl⟩ := List.mem_map.1 hc
    exact ⟨by positivity, by exact_mod_cast ZMod.val_lt _⟩
  have hco : ∀ i, i < (s :: cs).length → f.coeff i = (((s :: cs).getD i 0 : Int) : ZMod q) := by
    intro i hi
    cases i with
    | zero =>
      have h0 := hev 0
      simp only [v, r] at h0
      simp only [List.getD_cons_zero] at h0 ⊢
      rw [Polynomial.coeff_zero_eq_eval_zero]
      simpa using h0
    | succ j =>
      have hj : j < k := by simpa [hcl] using hi
      rw [List.getD_cons_succ, List.getD_eq_getElem _ _ (by omega)]
      simp [cs]
  refine ⟨cs, hcl, hcr, ?_⟩
  have hall : ∀ c ∈ s :: cs, 0 ≤ c := by
    intro c hc
    rcases List.mem_cons.1 hc with h | h
    · rw [h]; exact hs.1
    · exact (hcr c h).1
  apply List.ext_getElem (by simp [hyl])
  intro j h1 h2
  rw [List.getElem_map]
  have hjk : j < k := by simpa using h1
  apply eq_of_cast_eq (evaluatePolynomial_range _ hp _ hall) (hy _ (List.getElem_mem _))
  rw [cast_evaluatePolynomial_of_coeff (s :: cs) f (by simpa [hcl] using hdeg) hco]
  have h3 := hev ⟨j + 1, by omega⟩
  simp only [v, r, List.getD_cons_succ] at h3
  rw [List.getD_eq_getElem _ _ (by omega), List.getD_eq_getElem _ _ (by omega)] at h3
  exact h3

theorem secrecy_unique {q : Nat} (hq : q.Prime) (xs : List Nat) (hnd : xs.Nodup)
    (hx : ∀ x ∈ xs, 1 ≤ x ∧ x < q) (s : Int) (cs cs' : List Int)
    (hl : cs.length = xs.length) (hl' : cs'.length = xs.length)
    (hc : ∀ c ∈ cs, 0 ≤ c ∧ c < q) (hc' : ∀ c ∈ cs', 0 ≤ c ∧ c < q)
    (he : xs.map (fun (x : Nat) => evaluatePolynomial x (s :: cs) q)
      = xs.map (fun (x : Nat) => evaluatePolynomial x (s :: cs') q)) : cs = cs' := by
  haveI : Fact q.Prime := ⟨hq⟩
  obtain ⟨F, hdeg, hco, hev⟩ := exists_poly q (s :: cs)
  obtain ⟨F', hdeg', hco', hev'⟩ := exists_poly q (s :: cs')
  have hnd0 : (0 :: xs).Nodup := by
    refine List.nodup_cons.2 ⟨fun h0 => ?_, hnd⟩
    have := (hx 0 h0).1
    omega
  have hndz : ((0 :: xs).map (fun (x : Nat) => ((x : Int) : ZMod q))).Nodup := by
    refine List.Nodup.map_on ?_ hnd0
    intro a ha b hb hab
    have hlt : ∀ c ∈ (0 :: xs), c < q := by
      intro c hc
      rcases List.mem_cons.1 hc with h | h
      · rw [h]; exact hq.pos
      · exact (hx c h).2
    exact natCast_injOn (hlt a ha) (hlt b hb) hab
  have hcard : ((0 :: xs).map (fun (x : Nat) => ((x : Int) : ZMod q))).toFinset.card
      = xs.length + 1 := by
    rw [List.toFinset_card_of_nodup hndz]
    simp
  have hFF : F = F' := by
    refine Polynomial.eq_of_degrees_lt_of_eval_finset_eq
      ((0 :: xs).map (fun (x : Nat) => ((x : Int) : ZMod q))).toFinset ?_ ?_ ?_
    · rw [hcard]
      simpa [hl] using hdeg
    · rw [hcard]
      simpa [hl'] using hdeg'
    · intro z hz
      obtain ⟨x, hx', rfl⟩ := List.mem_map.1 (List.mem_toFinset.1 hz)
      rcases List.mem_cons.1 hx' with h | h
      · subst h
        rw [hev, hev']
        simp only [Nat.cast_zero, Int.cast_zero]
        rw [Finset.sum_eq_single 0, Finset.sum_eq_single 0]
        · simp
        · intro i _ hi
          simp [hi]
        · intro h
          simp at h
        · intro i _ hi
          simp [hi]
        · intro h
          simp at h
      · have h1 := cast_evaluatePolynomial_poly (s :: cs) F hev x
        have h2 := cast_evaluatePolynomial_poly (s :: cs') F' hev' x
        rw [← h1, ← h2, (List.map_inj_left.1 he) x h]
  apply List.ext_getElem (by rw [hl, hl'])
  intro i h1 h2
  apply eq_of_cast_eq (hc _ (List.getElem_mem _)) (hc' _ (List.getElem_mem _))
  have e1 := hco (i + 1)
  have e2 := hco' (i + 1)
  rw [List.getD_cons_succ, List.getD_eq_getElem _ _ h1] at e1
  rw [List.getD_cons_succ, List.getD_eq_getElem _ _ h2] at e2
  rw [← e1, ← e2, hFF]

/-- C5: for `t - 1` distinct indices in `1 .. n` with `n < p`, every secret `s` and every tuple
of `t - 1` target values there is exactly one coefficient vector `c_1 .. c_{t-1}` of `[0, p)`
for which the shares of `s` at those indices are the targets; the number of such vectors, 1,
does not depend on the secret. -/
theorem secrecy_below_threshold (p : Nat) (hp : p.Prime) (t n : Nat) (_ht : 1 ≤ t)
    (_htn : t ≤ n) (hnp : n < p) (xs : List Nat) (hxl : xs.length = t - 1) (hnd : xs.Nodup)
    (hx : ∀ x ∈ xs, 1 ≤ x ∧ x ≤ n) (s : Int) (hs : 0 ≤ s ∧ s < p) (ys : List Int)
    (hyl : ys.length = t - 1) (hy : ∀ y ∈ ys, 0 ≤ y ∧ y < p) :
    ∃! cs : List Int, cs.length = t - 1 ∧ (∀ c ∈ cs, 0 ≤ c ∧ c < p) ∧
      xs.map (fun (x : Nat) => evaluatePolynomial x (s :: cs) p) = ys := by
  have hx' : ∀ x ∈ xs, 1 ≤ x ∧ x < p := fun x h => ⟨(hx x h).1, by have := (hx x h).2; omega⟩
  obtain ⟨cs, h1, h2, h3⟩ := secrecy_exists hp xs hnd hx' s hs ys (by omega) hy
  refine ⟨cs, ⟨by omega, h2, h3⟩, ?_⟩
  rintro cs' ⟨g1, g2, g3⟩
  exact secrecy_unique hp xs hnd hx' s cs' cs (by omega) (by omega) g2 h2 (by rw [g3, h3])

theorem secrecy_below_threshold_witness :
    ∃! cs : List Int, cs.length = 3 - 1 ∧ (∀ c ∈ cs, 0 ≤ c ∧ c < ((23 : Nat) : Int)) ∧
      [2, 4].map (fun (x : Nat) => evaluatePolynomial x (7 :: cs) ((23 : Nat) : Int))
        = [20, 1] :=
  secrecy_below_threshold 23 (by norm_num) 3 5 (by decide) (by decide) (by decide) [2, 4]
    (by decide) (by decide) (by decide) 7 (by decide) [20, 1] (by decide) (by decide)

/-! ### The steps of `reshare` -/

theorem mapM_eq_some_map {α β : Type} (f : α → Option β) (h : α → β) :
    ∀ l : List α, (∀ a ∈ l, f a = some (h a)) → l.mapM f = some (l.map h) := by
  intro l
  induction l with
  | nil => intro _; rfl
  | cons a l ih =>
    intro hl
    rw [List.mapM_cons, hl a (List.mem_cons_self _ _),
      ih (fun b hb => hl b (List.mem_cons_of_mem _ hb))]
    rfl

/-- Sum of the mask values at one point, added to a start value. -/
theorem mask_foldl_cast (q x : Nat) (css : List (List Int)) :
    ∀ y : Int,
      ((css.foldl (fun y cs => (y + evaluatePolynomial x cs q).tmod q) y : Int) : ZMod q)
        = (y : ZMod q)
          + (css.map (fun cs => ((evaluatePolynomial x cs q : Int) : ZMod q))).sum := by
  induction css with
  | nil => intro y; simp
  | cons cs css ih =>
    intro y
    rw [List.foldl_cons, ih, cast_tmod]
    push_cast
    simp only [List.map_cons, List.sum_cons]
    ring

/-- C11: for `p ≥ 1` and `x ≥ 0`, `invertAdditive (x, p)` is `(p - (x mod p)) mod p`, lies in
`[0, p)`, adds up with `x` to 0 modulo `p`, and is 0 (not `p`) at `x = 0`. -/
theorem invertAdditive_reference (p : Nat) (hp : 1 ≤ p) (x : Int) (hx : 0 ≤ x) :
    invertAdditive x p = ((p : Int) - x % (p : Int)) % (p : Int) ∧
      (0 ≤ invertAdditive x p ∧ invertAdditive x p < p) ∧
      (x + invertAdditive x p) % (p : Int) = 0 ∧
      invertAdditive 0 p = 0 := by
  have hpos : (0 : Int) < p := by exact_mod_cast hp
  have h1 : x.tmod p = x % p := Int.tmod_eq_emod hx (le_of_lt hpos)
  have h2 : 0 ≤ x % (p : Int) := Int.emod_nonneg x (ne_of_gt hpos)
  have h3 : x % (p : Int) < p := Int.emod_lt_of_pos x hpos
  have h4 : invertAdditive x p = ((p : Int) - x % (p : Int)) % (p : Int) := by
    unfold invertAdditive
    rw [h1, Int.tmod_eq_emod (by omega) (le_of_lt hpos)]
  refine ⟨h4, invertAdditive_range x hpos, ?_, ?_⟩
  · rw [h4, Int.add_emod, Int.emod_emod, ← Int.add_emod]
    have e : x + ((p : Int) - x % (p : Int)) = (x - x % (p : Int)) + (p : Int) := by ring
    rw [e, Int.add_emod_self]
    exact Int.emod_eq_zero_of_dvd (Int.dvd_sub_of_emod_eq rfl)
  · unfold invertAdditive
    simp

theorem invertAdditive_reference_witness :
    invertAdditive 30 ((23 : Nat) : Int)
        = (((23 : Nat) : Int) - 30 % ((23 : Nat) : Int)) % ((23 : Nat) : Int) ∧
      (0 ≤ invertAdditive 30 ((23 : Nat) : Int) ∧
        invertAdditive 30 ((23 : Nat) : Int) < ((23 : Nat) : Int)) ∧
      (30 + invertAdditive 30 ((23 : Nat) : Int)) % ((23 : Nat) : Int) = 0 ∧
      invertAdditive 0 ((23 : Nat) : Int) = 0 :=
  invertAdditive_reference 23 (by decide) 30 (by decide)

/-- C13: for a prime `p`, a non-negative secret and every outcome of the draws, every
coefficient of `getRandomPolynomial` and every share value returned by `share` lies in
`[0, p)`; and `recover` of shares with non-negative indices and values lies in `[0, p)`. -/
theorem field_element_range (p : Nat) (hp : p.Prime) (secret : Int) (hs : 0 ≤ secret)
    (g : RandGen) (security : Nat) :
    (∀ degree : Nat, ∀ c ∈ (getRandomPolynomial degree p g security).1, 0 ≤ c ∧ c < p) ∧
      (∀ (t n : Nat) (shares : List share_t),
        (share secret t n p g security).map Prod.fst = some shares →
        ∀ sh ∈ shares, 0 ≤ sh.2 ∧ sh.2 < p) ∧
      ∀ shares : List share_t, (∀ sh ∈ shares, 0 ≤ sh.1 ∧ 0 ≤ sh.2) →
        0 ≤ recover shares p ∧ recover shares p < p := by
  have hpos : (0 : Int) < p := by exact_mod_cast hp.pos
  refine ⟨fun degree => getRandomPolynomial_range degree hpos g security, ?_,
    fun shares hl => recover_range hp shares hl⟩
  intro t n shares hsh sh hmem
  unfold share at hsh
  simp only [] at hsh
  split_ifs at hsh with hlen
  · simp only [Option.map_some', Option.some.injEq] at hsh
    subst hsh
    obtain ⟨i, -, rfl⟩ := List.mem_map.1 hmem
    refine evaluatePolynomial_range _ hpos _ ?_
    intro c hc
    rcases List.mem_or_eq_of_mem_set hc with h | h
    · exact (getRandomPolynomial_range _ hpos g security c h).1
    · rw [h]; exact hs
  · simp at hsh

theorem field_element_range_witness :
    (∀ degree : Nat, ∀ c ∈ (getRandomPolynomial degree ((23 : Nat) : Int)
        (fun k => 5 * k + 3) 48).1, 0 ≤ c ∧ c < ((23 : Nat) : Int)) ∧
      (∀ (t n : Nat) (shares : List share_t),
        (share 30 t n ((23 : Nat) : Int) (fun k => 5 * k + 3) 48).map Prod.fst = some shares →
        ∀ sh ∈ shares, 0 ≤ sh.2 ∧ sh.2 < ((23 : Nat) : Int)) ∧
      ∀ shares : List share_t, (∀ sh ∈ shares, 0 ≤ sh.1 ∧ 0 ≤ sh.2) →
        0 ≤ recover shares ((23 : Nat) : Int) ∧ recover shares ((23 : Nat) : Int)
          < ((23 : Nat) : Int) :=
  field_element_range 23 (by norm_num) 30 (by decide) (fun k => 5 * k + 3) 48

/-! ### `recover` as a weighted sum, for any modulus `p ≥ 1` -/

theorem int_sign_bounds (a : Int) : -1 ≤ Int.sign a ∧ Int.sign a ≤ 1 := by
  rcases lt_trichotomy a 0 with h | h | h
  · rw [Int.sign_eq_neg_one_of_neg h]; omega
  · rw [h]; simp
  · rw [Int.sign_eq_one_of_pos h]; omega

theorem mpz_gcdext_s_lower (x : Int) {p : Int} (hp : 1 ≤ p) : -p ≤ mpz_gcdext_s x p := by
  obtain ⟨g1, -⟩ := gcdextLoop_call x p
  have habs : |p| = p := abs_of_nonneg (by omega)
  have hgpos : (0 : Int) < (Int.gcd x p : Int) := by
    have : 0 < Int.gcd x p := Int.gcd_pos_of_ne_zero_right x (by omega)
    exact_mod_cast this
  have hsb := int_sign_bounds x
  unfold mpz_gcdext_s
  simp only []
  rw [g1, habs]
  split_ifs with h1 h2 h3
  · omega
  · omega
  · -- the reduced cofactor lies in `[0, m)` with `m = p / g ≤ p`
    obtain ⟨c, hc⟩ : ((Int.gcd x p : Int)) ∣ p := Int.gcd_dvd_right
    have hm : p / (Int.gcd x p : Int) = c :=
      Int.ediv_eq_of_eq_mul_right (ne_of_gt hgpos) hc
    have hcpos : 0 < c := by
      by_contra hneg
      have : (Int.gcd x p : Int) * c ≤ 0 :=
        mul_nonpos_of_nonneg_of_nonpos (le_of_lt hgpos) (by omega)
      omega
    have hcle : c ≤ p := by nlinarith
    rw [hm] at h3 ⊢
    have hr0 := Int.emod_nonneg (gcdextLoop (p.natAbs + 1) |x| 1 p 0).2 (ne_of_gt hcpos)
    have hr1 := Int.emod_lt_of_pos (gcdextLoop (p.natAbs + 1) |x| 1 p 0).2 hcpos
    nlinarith [hsb.1, hsb.2]
  · obtain ⟨c, hc⟩ : ((Int.gcd x p : Int)) ∣ p := Int.gcd_dvd_right
    have hm : p / (Int.gcd x p : Int) = c :=
      Int.ediv_eq_of_eq_mul_right (ne_of_gt hgpos) hc
    have hcpos : 0 < c := by
      by_contra hneg
      have : (Int.gcd x p : Int) * c ≤ 0 :=
        mul_nonpos_of_nonneg_of_nonpos (le_of_lt hgpos) (by omega)
      omega
    have hcle : c ≤ p := by nlinarith
    rw [hm] at h3 ⊢
    have hr0 := Int.emod_nonneg (gcdextLoop (p.natAbs + 1) |x| 1 p 0).2 (ne_of_gt hcpos)
    have hr1 := Int.emod_lt_of_pos (gcdextLoop (p.natAbs + 1) |x| 1 p 0).2 hcpos
    nlinarith [hsb.1, hsb.2]

theorem invertMultiplicative_nonneg (x : Int) {p : Int} (hp : 1 ≤ p) :
    0 ≤ invertMultiplicative x p := by
  have hl := mpz_gcdext_s_lower x hp
  unfold invertMultiplicative
  simp only []
  split_ifs with h1 h2
  · rcases h1 with h | h <;> omega
  · omega
  · omega

theorem lagrange_foldl_nonneg_general (x_j : Int) {p : Int} (hp : 1 ≤ p) (x_ms : List Int) :
    ∀ init : Int, 0 ≤ init → 0 ≤ x_ms.foldl (lagrangeStep 0 x_j p) init := by
  induction x_ms with
  | nil => intro init h; exact h
  | cons m ms ih =>
    intro init h
    rw [List.foldl_cons]
    apply ih
    unfold lagrangeStep
    split_ifs
    · exact h
    · have ha := invertAdditive_range m (by omega : 0 < p)
      have h1 := tmod_range (a := 0 + invertAdditive m p) (by omega) (by omega : 0 < p)
      have h3 := invertMultiplicative_nonneg ((x_j + invertAdditive m p).tmod p) hp
      exact Int.tmod_nonneg _ (mul_nonneg (mul_nonneg h h1.1) h3)

theorem evaluateLagrangePolynomial_zero_nonneg (x_j : Int) {p : Int} (hp : 1 ≤ p)
    (x_ms : List Int) : 0 ≤ evaluateLagrangePolynomial 0 x_j x_ms p :=
  lagrange_foldl_nonneg_general x_j hp x_ms 1 (by decide)

theorem recover_foldl_eq_sum {p : Int} (hp : 1 ≤ p) (idx : List Int) (l : List share_t)
    (hl : ∀ sh ∈ l, 0 ≤ sh.2) :
    ∀ init : Int, 0 ≤ init → init < p →
      l.foldl (fun secret sh =>
          (secret + evaluateLagrangePolynomial 0 sh.1 idx p * sh.2).tmod p) init
        = (init + (l.map (fun sh =>
            evaluateLagrangePolynomial 0 sh.1 idx p * sh.2)).sum) % p := by
  induction l with
  | nil =>
    intro init h0 h1
    simp only [List.foldl_nil, List.map_nil, List.sum_nil, add_zero]
    exact (Int.emod_eq_of_lt h0 h1).symm
  | cons sh l ih =>
    intro init h0 h1
    have hy := hl sh (List.mem_cons_self _ _)
    have hL := evaluateLagrangePolynomial_zero_nonneg sh.1 hp idx
    have hnn : 0 ≤ init + evaluateLagrangePolynomial 0 sh.1 idx p * sh.2 :=
      add_nonneg h0 (mul_nonneg hL hy)
    have hr := tmod_range hnn (by omega : 0 < p)
    rw [List.foldl_cons, ih (fun s hs => hl s (List.mem_cons_of_mem _ hs)) _ hr.1 hr.2,
      Int.tmod_eq_emod hnn (by omega), Int.emod_add_emod]
    simp only [List.map_cons, List.sum_cons]
    rw [add_assoc]

/-- The value of `recover`: the weighted sum of the share values, reduced modulo `p`. -/
theorem recover_eq_sum {p : Int} (hp : 1 ≤ p) (shares : List share_t)
    (hl : ∀ sh ∈ shares, 0 ≤ sh.2) :
    recover shares p = ((shares.map (fun sh =>
      evaluateLagrangePolynomial 0 sh.1 (shares.map Prod.fst) p * sh.2)).sum) % p := by
  unfold recover
  simp only []
  rw [recover_foldl_eq_sum hp _ shares hl 0 (le_refl _) (by omega)]
  simp

/-! ### Additivity and order independence of `recover` -/

theorem zipWith_indices (p : Int) : ∀ A B : List share_t, A.map Prod.fst = B.map Prod.fst →
    (List.zipWith (fun (a b : share_t) => (a.1, (a.2 + b.2).tmod p)) A B).map Prod.fst
      = A.map Prod.fst := by
  intro A
  induction A with
  | nil => intro B _; simp
  | cons a A ih =>
    intro B h
    cases B with
    | nil => simp at h
    | cons b B =>
      simp only [List.map_cons, List.cons.injEq] at h
      simp only [List.zipWith_cons_cons, List.map_cons, List.cons.injEq, true_and]
      exact ih B h.2

theorem zipWith_values_nonneg (p : Int) : ∀ A B : List share_t,
    (∀ sh ∈ A, 0 ≤ sh.2) → (∀ sh ∈ B, 0 ≤ sh.2) →
    ∀ sh ∈ List.zipWith (fun (a b : share_t) => (a.1, (a.2 + b.2).tmod p)) A B, 0 ≤ sh.2 := by
  intro A
  induction A with
  | nil => intro B _ _ sh h; simp at h
  | cons a A ih =>
    intro B hA hB sh h
    cases B with
    | nil => simp at h
    | cons b B =>
      rw [List.zipWith_cons_cons] at h
      rcases List.mem_cons.1 h with h1 | h1
      · rw [h1]
        exact Int.tmod_nonneg _ (add_nonneg (hA a (List.mem_cons_self _ _))
          (hB b (List.mem_cons_self _ _)))
      · exact ih B (fun s hs => hA s (List.mem_cons_of_mem _ hs))
          (fun s hs => hB s (List.mem_cons_of_mem _ hs)) sh h1

theorem zipWith_sum_modEq {p : Int} (hp : 1 ≤ p) (w : Int → Int) :
    ∀ A B : List share_t, A.map Prod.fst = B.map Prod.fst →
    (∀ sh ∈ A, 0 ≤ sh.2) → (∀ sh ∈ B, 0 ≤ sh.2) →
    ((List.zipWith (fun (a b : share_t) => (a.1, (a.2 + b.2).tmod p)) A B).map
        (fun sh => w sh.1 * sh.2)).sum
      ≡ (A.map (fun sh => w sh.1 * sh.2)).sum + (B.map (fun sh => w sh.1 * sh.2)).sum
        [ZMOD p] := by
  intro A
  induction A with
  | nil =>
    intro B h _ _
    cases B with
    | nil => simp [Int.ModEq]
    | cons b B => simp at h
  | cons a A ih =>
    intro B h hA hB
    cases B with
    | nil => simp at h
    | cons b B =>
      simp only [List.map_cons, List.cons.injEq] at h
      have ih' := ih B h.2 (fun s hs => hA s (List.mem_cons_of_mem _ hs))
        (fun s hs => hB s (List.mem_cons_of_mem _ hs))
      have ha := hA a (List.mem_cons_self _ _)
      have hb := hB b (List.mem_cons_self _ _)
      simp only [List.zipWith_cons_cons, List.map_cons, List.sum_cons]
      have e1 : (a.2 + b.2).tmod p ≡ a.2 + b.2 [ZMOD p] := by
        rw [Int.tmod_eq_emod (add_nonneg ha hb) (by omega)]
        exact Int.mod_modEq _ _
      have e2 : w a.1 * (a.2 + b.2).tmod p ≡ w a.1 * a.2 + w b.1 * b.2 [ZMOD p] := by
        rw [← h.1, ← mul_add]
        exact Int.ModEq.mul_left _ e1
      have e3 := Int.ModEq.add e2 ih'
      have e4 : w a.1 * a.2 + w b.1 * b.2
            + ((A.map (fun sh => w sh.1 * sh.2)).sum + (B.map (fun sh => w sh.1 * sh.2)).sum)
          = w a.1 * a.2 + (A.map (fun sh => w sh.1 * sh.2)).sum
            + (w b.1 * b.2 + (B.map (fun sh => w sh.1 * sh.2)).sum) := by ring
      rw [e4] at e3
      exact e3

/-- C18: for `p ≥ 1` and two share lists with the same index at every position and
non-negative values, `recover` of the list of the values `(a_j + b_j) mod p` is
`(recover (A, p) + recover (B, p)) mod p`. -/
theorem recover_additive (p : Nat) (hp : 1 ≤ p) (A B : List share_t)
    (hidx : A.map Prod.fst = B.map Prod.fst) (hA : ∀ sh ∈ A, 0 ≤ sh.2)
    (hB : ∀ sh ∈ B, 0 ≤ sh.2) :
    recover (List.zipWith (fun (a b : share_t) => (a.1, (a.2 + b.2).tmod p)) A B) p
      = (recover A p + recover B p) % (p : Int) := by
  have hp' : (1 : Int) ≤ p := by exact_mod_cast hp
  rw [recover_eq_sum hp' A hA, recover_eq_sum hp' B hB,
    recover_eq_sum hp' _ (zipWith_values_nonneg (p : Int) A B hA hB), zipWith_indices (p : Int) A B hidx,
    ← hidx,
    ← Int.add_emod]
  exact zipWith_sum_modEq hp' (fun x => evaluateLagrangePolynomial 0 x (A.map Prod.fst) p)
    A B hidx hA hB

theorem recover_additive_witness :
    recover (List.zipWith (fun (a b : share_t) => (a.1, (a.2 + b.2).tmod ((23 : Nat) : Int)))
        [(1, 18), (2, 22), (4, 9)] [(1, 5), (2, 20), (4, 13)]) ((23 : Nat) : Int)
      = (recover [(1, 18), (2, 22), (4, 9)] ((23 : Nat) : Int)
          + recover [(1, 5), (2, 20), (4, 13)] ((23 : Nat) : Int)) % ((23 : Nat) : Int) :=
  recover_additive 23 (by decide) [(1, 18), (2, 22), (4, 9)] [(1, 5), (2, 20), (4, 13)]
    (by decide) (by decide) (by decide)

theorem lagrange_foldl_cast_raw (q : Nat) (x x_j : Int) (x_ms : List Int) :
    ∀ init : Int, ((x_ms.foldl (lagrangeStep x x_j q) init : Int) : ZMod q)
      = (init : ZMod q) * ((x_ms.filter (fun m => decide (x_j ≠ m))).map
          (fun (m : Int) => (((x + invertAdditive m q).tmod q : Int) : ZMod q)
            * ((invertMultiplicative ((x_j + invertAdditive m q).tmod q) q : Int) : ZMod q))).prod
    := by
  induction x_ms with
  | nil => intro init; simp
  | cons m ms ih =>
    intro init
    rw [List.foldl_cons, ih]
    by_cases h : x_j = m
    · rw [List.filter_cons_of_neg (by simpa using h)]
      simp [lagrangeStep, h]
    · rw [List.filter_cons_of_pos (by simpa using h), List.map_cons, List.prod_cons]
      unfold lagrangeStep
      rw [if_neg h, cast_tmod]
      push_cast
      ring

theorem cast_lagrange_perm (q : Nat) (x_j : Int) {I I' : List Int} (h : I'.Perm I) :
    ((evaluateLagrangePolynomial 0 x_j I' q : Int) : ZMod q)
      = ((evaluateLagrangePolynomial 0 x_j I q : Int) : ZMod q) := by
  unfold evaluateLagrangePolynomial
  rw [lagrange_foldl_cast_raw, lagrange_foldl_cast_raw]
  congr 1
  exact List.Perm.prod_eq (List.Perm.map _ (List.Perm.filter _ h))

/-- C19: for `p ≥ 1` and shares with non-negative values, `recover` of a permutation of the
list equals `recover` of the list. -/
theorem recover_perm (p : Nat) (hp : 1 ≤ p) (shares permuted : List share_t)
    (hperm : permuted.Perm shares) (hv : ∀ sh ∈ shares, 0 ≤ sh.2) :
    recover permuted p = recover shares p := by
  have hp' : (1 : Int) ≤ p := by exact_mod_cast hp
  have hv' : ∀ sh ∈ permuted, 0 ≤ sh.2 := fun sh h => hv sh (hperm.mem_iff.1 h)
  rw [recover_eq_sum hp' shares hv, recover_eq_sum hp' permuted hv']
  have hI : (permuted.map Prod.fst).Perm (shares.map Prod.fst) := List.Perm.map _ hperm
  have hc : (((permuted.map (fun sh =>
        evaluateLagrangePolynomial 0 sh.1 (permuted.map Prod.fst) p * sh.2)).sum : Int) : ZMod p)
      = (((shares.map (fun sh =>
        evaluateLagrangePolynomial 0 sh.1 (shares.map Prod.fst) p * sh.2)).sum : Int) : ZMod p)
      := by
    rw [Int.cast_list_sum, Int.cast_list_sum, List.map_map, List.map_map]
    have e : permuted.map ((fun (a : Int) => (a : ZMod p)) ∘ (fun sh =>
          evaluateLagrangePolynomial 0 sh.1 (permuted.map Prod.fst) p * sh.2))
        = permuted.map ((fun (a : Int) => (a : ZMod p)) ∘ (fun sh =>
          evaluateLagrangePolynomial 0 sh.1 (shares.map Prod.fst) p * sh.2)) := by
      refine List.map_congr_left (fun sh _ => ?_)
      simp only [Function.comp]
      push_cast
      rw [cast_lagrange_perm p sh.1 hI]
    rw [e]
    exact List.Perm.sum_eq (List.Perm.map _ hperm)
  exact (ZMod.intCast_eq_intCast_iff _ _ _).1 hc

theorem recover_perm_witness :
    recover [(4, 9), (1, 18), (2, 22)] ((23 : Nat) : Int)
      = recover [(1, 18), (2, 22), (4, 9)] ((23 : Nat) : Int) :=
  recover_perm 23 (by decide) [(1, 18), (2, 22), (4, 9)] [(4, 9), (1, 18), (2, 22)]
    (by decide) (by decide)

/-- C12: `recover` has no threshold check: on every list of shares with distinct nonzero
indices and non-negative values, of any length, it returns a value of `[0, p)` and no error;
and for the prime 23, the polynomial `7 + 3 x + 8 x^2` (so `t = 3`, secret 7) and its two
shares at 1 and 2 the value returned is 14, not 7. -/
theorem recover_below_threshold :
    (∀ (p : Nat) (shares : List share_t), 1 ≤ p → (shares.map Prod.fst).Nodup →
        (∀ sh ∈ shares, sh.1 ≠ 0 ∧ 0 ≤ sh.2) →
        ∃ v : Int, recover shares p = v ∧ 0 ≤ v ∧ v < p) ∧
      Nat.Prime 23 ∧
      ([1, 2] : List Nat).map (fun (x : Nat) => ((x : Int), evaluatePolynomial x [7, 3, 8] 23))
        = [(1, 18), (2, 22)] ∧
      recover [(1, 18), (2, 22)] 23 = 14 ∧
      recover [(1, 18), (2, 22)] 23 ≠ ([7, 3, 8] : List Int).getD 0 0 := by
  refine ⟨?_, by norm_num, by decide, by decide, by decide⟩
  intro p shares hp _ hl
  have hp' : (1 : Int) ≤ p := by exact_mod_cast hp
  refine ⟨_, rfl, ?_⟩
  rw [recover_eq_sum hp' shares (fun sh hsh => (hl sh hsh).2)]
  exact ⟨Int.emod_nonneg _ (by omega), Int.emod_lt_of_pos _ (by omega)⟩

/-! ### The out-of-range reads of `reshare` -/

theorem share_none_or_loop (secret : Int) (t n : Nat) (p : Int) (g : RandGen)
    (security : Nat) :
    share secret t n p g security = none ∨
      ∃ (cs : List Int) (g' : RandGen), share secret t n p g security
        = some (shareLoop n cs p, g') := by
  unfold share
  simp only []
  split_ifs
  · exact Or.inr ⟨_, _, rfl⟩
  · exact Or.inl rfl

theorem randomSharesLoop_none_or_loop (t_old n_new : Nat) (p : Int) (security : Nat) :
    ∀ (m : Nat) (g : RandGen), randomSharesLoop t_old n_new p security m g = none ∨
      ∃ (css : List (List Int)) (g' : RandGen),
        randomSharesLoop t_old n_new p security m g
            = some (css.map (fun cs => shareLoop n_new cs p), g') ∧
          css.length = m := by
  intro m
  induction m with
  | zero => intro g; exact Or.inr ⟨[], g, rfl, rfl⟩
  | succ m ih =>
    intro g
    unfold randomSharesLoop
    rcases share_none_or_loop ((get_z_bits g security).1.tmod p) t_old n_new p
      (get_z_bits g security).2 security with h | ⟨cs, g1, h⟩
    · rw [h]
      exact Or.inl rfl
    · rw [h]
      simp only []
      rcases ih g1 with h2 | ⟨css, g2, h2, hlen⟩
      · rw [h2]
        exact Or.inl rfl
      · rw [h2]
        exact Or.inr ⟨cs :: css, g2, rfl, by simp [hlen]⟩

theorem mapM_eq_none_of_mem {α β : Type} (f : α → Option β) (a : α) :
    ∀ l : List α, a ∈ l → f a = none → l.mapM f = none := by
  intro l
  induction l with
  | nil => intro h _; simp at h
  | cons b l ih =>
    intro h hf
    rw [List.mapM_cons]
    rcases List.mem_cons.1 h with h1 | h1
    · rw [← h1, hf]
      rfl
    · rw [ih h1 hf]
      cases f b <;> rfl

/-- The read for the new share with index `n`: position `n + 1` of a mask share set of size
`n`. -/
theorem unmaskShare_last_none {n : Nat} (hn : n < 2 ^ 32) (p : Int) (cs : List Int)
    (css : List (List Int)) (y : Int) :
    unmaskShare ((cs :: css).map (fun c => shareLoop n c p)) p ((n : Int), y) = none := by
  unfold unmaskShare
  simp only [List.map_cons, List.foldlM_cons]
  have hpos : (get_ui ((n : Nat) : Int) + 1) % 2 ^ 64 = n + 1 := by
    unfold get_ui
    simp only [Int.natAbs_ofNat]
    omega
  rw [hpos, List.getElem?_eq_none (by rw [shareLoop_length]; omega)]
  rfl

theorem last_mem_shareLoop {n : Nat} (h1 : 1 ≤ n) (hn : n < 2 ^ 32) (cs : List Int) (p : Int) :
    ((n : Int), evaluatePolynomial n cs p) ∈ shareLoop n cs p := by
  unfold shareLoop
  refine List.mem_map.2 ⟨n - 1, List.mem_range.2 (by omega), ?_⟩
  have e : n - 1 + 1 = n := by omega
  rw [e, Nat.mod_eq_of_lt hn]

/-- C16 (what the source does): for a non-empty list of old shares and `n_new ≥ 1` the read for
the new share with index `n_new` is at position `n_new + 1`, outside the mask share set of size
`n_new`, so `reshare` never completes within range. -/
theorem reshare_reads_out_of_range (shares : List share_t) (hne : shares ≠ [])
    (t_old t_new n_new : Nat) (h1 : 1 ≤ n_new) (hn : n_new < 2 ^ 32) (p : Int) (g : RandGen)
    (security : Nat) :
    ¬ ((get_ui ((n_new : Nat) : Int) + 1) % 2 ^ 64 < n_new) ∧
      reshare shares t_old t_new n_new p g security = none := by
  constructor
  · unfold get_ui
    simp only [Int.natAbs_ofNat]
    omega
  · unfold reshare
    rcases randomSharesLoop_none_or_loop t_old n_new p security shares.length g with
      h | ⟨css, g1, h, hlen⟩
    · rw [h]
    · rw [h]
      simp only []
      cases hm : shares.mapM (maskShare (css.map (fun cs => shareLoop n_new cs p)) p) with
      | none => rfl
      | some maskedShares =>
        simp only []
        rcases share_none_or_loop (recover maskedShares p) t_new n_new p g1 security with
          h2 | ⟨cs, g2, h2⟩
        · rw [h2]
        · rw [h2]
          simp only []
          cases css with
          | nil =>
            have : shares.length = 0 := by simpa using hlen.symm
            exact absurd (List.length_eq_zero.1 this) hne
          | cons c css =>
            rw [mapM_eq_none_of_mem _ _ _ (last_mem_shareLoop h1 hn cs p)
              (unmaskShare_last_none hn p c css _)]

theorem reshare_reads_out_of_range_witness :
    ¬ ((get_ui ((40 : Nat) : Int) + 1) % 2 ^ 64 < 40) ∧
      reshare [(2, 10), (3, 11), (4, 12), (5, 13)] 4 10 40 41 (fun k => 5 * k + 3) 48 = none :=
  reshare_reads_out_of_range [(2, 10), (3, 11), (4, 12), (5, 13)] (by decide) 4 10 40
    (by decide) (by decide) 41 (fun k => 5 * k + 3) 48

/-- C14 (what the source does): for the old shares `(1,10), (2,13)` of the secret 7 modulo 23
(`t_old = 2`, `n_new = 4`) the two mask share sets come from the random secrets 3 and 13, the
masked shares are `(1,12), (2,18)`, and the masked secret recovered from them is 6, whereas
`(7 + 3 + 13) mod 23 = 0`. -/
theorem reshare_masked_secret_evaluation :
    recover [(1, 10), (2, 13)] 23 = 7 ∧
      (randomSharesLoop 2 4 23 48 2 (fun k => 5 * k + 3)).map Prod.fst
        = some [[(1, 11), (2, 19), (3, 4), (4, 12)], [(1, 8), (2, 3), (3, 21), (4, 16)]] ∧
      (get_z_bits (fun k => 5 * k + 3) 48).1.tmod 23 = 3 ∧
      (get_z_bits (fun k => 5 * (k + 2) + 3) 48).1.tmod 23 = 13 ∧
      recover [(1, 11), (2, 19)] 23 = 3 ∧ recover [(1, 8), (2, 3)] 23 = 13 ∧
      ([(1, 10), (2, 13)] : List share_t).mapM (maskShare
          [[(1, 11), (2, 19), (3, 4), (4, 12)], [(1, 8), (2, 3), (3, 21), (4, 16)]] 23)
        = some [(1, 12), (2, 18)] ∧
      recover [(1, 12), (2, 18)] 23 = 6 ∧
      ((7 : Int) + 3 + 13) % 23 = 0 :=
  ⟨by decide, by decide, by decide, by decide, by decide, by decide, by decide, by decide,
    by decide⟩

/-- C15 (what the source does): with the mask share sets of the same run and the new masked
share `(1, 6)`, the unmasked value is 4, obtained from the sub-shares with index 3 (values 4
and 21), whereas the sub-shares with index 1 (values 11 and 8) would give 10. -/
theorem reshare_unmask_evaluation :
    ((randomSharesLoop 2 4 23 48 2 (fun k => 5 * k + 3)).bind
        (fun r => (share 6 2 4 23 r.2 48).map Prod.fst))
        = some [(1, 6), (2, 6), (3, 6), (4, 6)] ∧
      unmaskShare [[(1, 11), (2, 19), (3, 4), (4, 12)], [(1, 8), (2, 3), (3, 21), (4, 16)]] 23
          (1, 6) = some (1, 4) ∧
      ((6 : Int) + invertAdditive 4 23 + invertAdditive 21 23) % 23 = 4 ∧
      ((6 : Int) + invertAdditive 11 23 + invertAdditive 8 23) % 23 = 10 :=
  ⟨by decide, by decide, by decide, by decide⟩

/-! ### The values `reshare` computes where its reads are in range -/

theorem mask_foldl_range (x : Nat) {p : Int} (hp : 0 < p) (css : List (List Int))
    (hcs : ∀ cs ∈ css, ∀ c ∈ cs, 0 ≤ c) :
    ∀ y : Int, 0 ≤ y → y < p →
      0 ≤ css.foldl (fun y cs => (y + evaluatePolynomial x cs p).tmod p) y ∧
        css.foldl (fun y cs => (y + evaluatePolynomial x cs p).tmod p) y < p := by
  induction css with
  | nil => intro y h0 h1; exact ⟨h0, h1⟩
  | cons cs css ih =>
    intro y h0 h1
    rw [List.foldl_cons]
    have := (evaluatePolynomial_range x hp cs (hcs cs (List.mem_cons_self _ _))).1
    have hr := tmod_range (a := y + evaluatePolynomial x cs p) (by omega) hp
    exact ih (fun cs' h' => hcs cs' (List.mem_cons_of_mem _ h')) _ hr.1 hr.2

theorem cast_sum_evaluate (q x : Nat) (css : List (List Int)) :
    (((css.map (fun cs => evaluatePolynomial x cs q)).sum : Int) : ZMod q)
      = (css.map (fun cs => ((evaluatePolynomial x cs q : Int) : ZMod q))).sum := by
  rw [Int.cast_list_sum, List.map_map]
  rfl

/-- The masked value: start value plus the mask values at `x`, modulo `p`. -/
theorem mask_foldl_eq {q : Nat} (hq : 1 ≤ q) (x : Nat) (css : List (List Int))
    (hcs : ∀ cs ∈ css, ∀ c ∈ cs, 0 ≤ c) (y : Int) (hy : 0 ≤ y ∧ y < q) :
    css.foldl (fun y cs => (y + evaluatePolynomial x cs q).tmod q) y
      = (y + (css.map (fun cs => evaluatePolynomial x cs q)).sum) % (q : Int) := by
  have hp : (0 : Int) < q := by exact_mod_cast hq
  refine eq_of_cast_eq (mask_foldl_range x hp css hcs y hy.1 hy.2)
    ⟨Int.emod_nonneg _ (ne_of_gt hp), Int.emod_lt_of_pos _ hp⟩ ?_
  rw [mask_foldl_cast, ZMod.intCast_mod, Int.cast_add, cast_sum_evaluate]

end Shamir
